import Mathlib

/-!
smtpx: MIME message assembly and the SMTP session driver.

A shallow embedding of `main.go` (package `main` of `linpinger/smtpx`).

* Go `string` and `[]byte` values are byte sequences: `Bytes = List (Fin 256)`.
* The package-level variable `boundary` is passed explicitly to the builder.
* A `*Letter` receiver is a `Letter` value threaded through the methods; the
  mutex field guards only the `Add*` appends and is not part of the value.
* Calls into the Go standard library (`encoding/base64`, `encoding/hex`,
  `strings`, `strconv`, `net/smtp`) are modelled by the definitions marked as
  such, following the documented behaviour of those packages.
-/

set_option maxRecDepth 100000

namespace Smtpx

/-! ## Bytes and string literals -/

abbrev Byte := Fin 256

abbrev Bytes := List Byte

/-- The bytes of an ASCII string literal of the source. -/
def str (s : String) : Bytes := s.toList.map (fun c => Fin.ofNat c.toNat)

/-- Line feed, `'\n'`. -/
def LF : Byte := 10

/-- Carriage return, `'\r'`. -/
def CR : Byte := 13

/-- The literal `"\r\n"`. -/
def crlf : Bytes := [CR, LF]

/-! ## `encoding/base64`: `StdEncoding` -/

/-- The alphabet of `base64.StdEncoding` (`encodeStd` in `encoding/base64`). -/
def encodeStd : Bytes :=
  str "ABCDEFGHIJKLMNOPQRSTUVWXYZabcdefghijklmnopqrstuvwxyz0123456789+/"

/-- The padding character of `base64.StdEncoding`, `'='`. -/
def StdPadding : Byte := 61

/-- Lookup `enc.encode[i]` in the alphabet. -/
def encChar (i : Nat) : Byte := encodeStd.getD i 0

/-- `base64.StdEncoding.EncodedLen(n)`: the padded length `(n + 2) / 3 * 4`. -/
def EncodedLen (n : Nat) : Nat := (n + 2) / 3 * 4

/-- `base64.StdEncoding.Encode` as a function of the source bytes: every full
3-byte group is packed into the 24-bit value `val` and emitted as four
alphabet characters; a remainder of one or two bytes is emitted as two or
three characters followed by padding. -/
def stdEncode : Bytes → Bytes
  | a :: b :: c :: rest =>
    let val := a.val * 65536 + b.val * 256 + c.val
    encChar (val / 262144 % 64) :: encChar (val / 4096 % 64) ::
      encChar (val / 64 % 64) :: encChar (val % 64) :: stdEncode rest
  | [a, b] =>
    let val := a.val * 65536 + b.val * 256
    [encChar (val / 262144 % 64), encChar (val / 4096 % 64),
      encChar (val / 64 % 64), StdPadding]
  | [a] =>
    let val := a.val * 65536
    [encChar (val / 262144 % 64), encChar (val / 4096 % 64), StdPadding, StdPadding]
  | [] => []

/-- `base64.StdEncoding.Encode(dst, src)`: the encoding of `src` overwrites the
first `EncodedLen(len(src))` bytes of `dst`; the rest of `dst` is untouched.
Every `dst` that `base64Wrap` passes holds at least that many bytes. -/
def Encode (dst src : Bytes) : Bytes :=
  stdEncode src ++ dst.drop (EncodedLen src.length)

/-- `base64.StdEncoding.EncodeToString`. -/
def EncodeToString (src : Bytes) : Bytes := stdEncode src

/-! ## `base64Wrap` -/

/-- The constant `MaxLineLength`. -/
def MaxLineLength : Nat := 76

/-- The local constant `maxRaw` of `base64Wrap`: 57 raw bytes per 76-byte line. -/
def maxRaw : Nat := 57

/-- The loop `for len(b) >= maxRaw { ... }` of `base64Wrap`, on the state
(writer contents, line buffer, remaining input). The first argument bounds the
number of iterations; `base64Wrap` passes `len(b)`, which is never exhausted
before the loop condition fails. -/
def base64WrapLoop : Nat → Bytes → Bytes → Bytes → Bytes × Bytes × Bytes
  | 0, w, buffer, b => (w, buffer, b)
  | fuel + 1, w, buffer, b =>
    if maxRaw ≤ b.length then
      let buffer1 := Encode buffer (b.take maxRaw)
      base64WrapLoop fuel (w ++ buffer1) buffer1 (b.drop maxRaw)
    else (w, buffer, b)

/-- The function `base64Wrap(w, b)`; the writer `w` is the sequence of bytes
written so far and the result is its contents afterwards. -/
def base64Wrap (w b : Bytes) : Bytes :=
  -- buffer := make([]byte, MaxLineLength+len("\r\n")); copy(buffer[MaxLineLength:], "\r\n")
  let buffer0 : Bytes := List.replicate (MaxLineLength + crlf.length) 0
  let buffer := buffer0.take MaxLineLength ++ crlf
  let (w1, buffer1, b1) := base64WrapLoop b.length w buffer b
  if 0 < b1.length then
    let out := buffer1.take (EncodedLen b1.length)
    let out1 := Encode out b1
    let out2 := out1 ++ crlf
    w1 ++ out2
  else w1

/-! ## Standard base64 decoding (the reader's side of the round trip) -/

/-- The value of an alphabet character, if it is one. -/
def decChar (c : Byte) : Option Nat :=
  if c ∈ encodeStd then some (encodeStd.indexOf c) else none

/-- Decode a full quantum of four alphabet characters into three bytes. -/
def decQuad (c0 c1 c2 c3 : Byte) : Option Bytes := do
  let d0 ← decChar c0
  let d1 ← decChar c1
  let d2 ← decChar c2
  let d3 ← decChar c3
  let val := d0 * 262144 + d1 * 4096 + d2 * 64 + d3
  pure [Fin.ofNat (val / 65536), Fin.ofNat (val / 256 % 256), Fin.ofNat (val % 256)]

/-- Decode the final quantum, which may carry one or two padding characters. -/
def decLast (c0 c1 c2 c3 : Byte) : Option Bytes :=
  if c3 = StdPadding then
    if c2 = StdPadding then do
      let d0 ← decChar c0
      let d1 ← decChar c1
      let val := d0 * 262144 + d1 * 4096
      pure [Fin.ofNat (val / 65536)]
    else do
      let d0 ← decChar c0
      let d1 ← decChar c1
      let d2 ← decChar c2
      let val := d0 * 262144 + d1 * 4096 + d2 * 64
      pure [Fin.ofNat (val / 65536), Fin.ofNat (val / 256 % 256)]
  else decQuad c0 c1 c2 c3

/-- Standard (RFC 4648, padded) base64 decoding: the input is a sequence of
4-character quanta, padding is accepted in the last quantum only, and any other
input is rejected. -/
def stdDecode : Bytes → Option Bytes
  | [] => some []
  | c0 :: c1 :: c2 :: c3 :: rest =>
    if rest = [] then decLast c0 c1 c2 c3
    else do
      let g ← decQuad c0 c1 c2 c3
      let r ← stdDecode rest
      pure (g ++ r)
  | _ => none

/-- Removing every CR and LF. -/
def stripCRLF (s : Bytes) : Bytes := s.filter (fun c => c ≠ CR ∧ c ≠ LF)

/-! ## The line structure of `base64Wrap` -/

/-- The characters `stdEncode` can emit: alphabet characters and padding. -/
def IsB64 (c : Byte) : Prop := (∃ i, i < 64 ∧ c = encChar i) ∨ c = StdPadding

/-- The `i`-th group of `maxRaw` raw bytes of `b`. -/
def rawChunk (b : Bytes) (i : Nat) : Bytes := (b.drop (maxRaw * i)).take maxRaw

/-- The encodings of the full groups of `maxRaw` raw bytes of `b`, in order. -/
def fullLines (b : Bytes) : List Bytes :=
  (List.range (b.length / maxRaw)).map (fun i => stdEncode (rawChunk b i))

/-- The raw bytes left after the full groups. -/
def tailRaw (b : Bytes) : Bytes := b.drop (maxRaw * (b.length / maxRaw))

/-- The lines of the wrapped encoding of `b`, without their terminators. -/
def wrapLines (b : Bytes) : List Bytes :=
  fullLines b ++ (if 0 < (tailRaw b).length then [stdEncode (tailRaw b)] else [])

/-- Terminate every line with CRLF and concatenate. -/
def joinCRLF (ls : List Bytes) : Bytes := (ls.map (fun l => l ++ crlf)).flatten

/-! ## `strings` and `encoding/hex` -/

/-- `strings.Join(elems, sep)`. -/
def Join : List Bytes → Bytes → Bytes
  | [], _ => []
  | [a], _ => a
  | a :: b :: rest, sep => a ++ sep ++ Join (b :: rest) sep

/-- The pieces of `s` between the occurrences of the byte `sep`; there is always
at least one piece. With `sep = ':'` this is `strings.Split(s, ":")`. -/
def splitByte (sep : Byte) : Bytes → List Bytes
  | [] => [[]]
  | c :: cs =>
    if c = sep then [] :: splitByte sep cs
    else (c :: (splitByte sep cs).headD []) :: (splitByte sep cs).tail

/-- The table `hextable` of `encoding/hex`. -/
def hextable : Bytes := str "0123456789abcdef"

/-- `hex.EncodeToString`: two lower-case hexadecimal digits per byte. -/
def hexEncodeToString : Bytes → Bytes
  | [] => []
  | v :: rest => hextable.getD (v.val / 16) 0 :: hextable.getD (v.val % 16) 0 ::
      hexEncodeToString rest

/-- The function `generateBoundary`. The argument is what the random source
delivers to `rand.Read`: `buf` starts as 16 zero bytes and the bytes read
overwrite its beginning. -/
def generateBoundary (random : Bytes) : Bytes :=
  let buf : Bytes := List.replicate 16 0
  let buf1 := random.take 16 ++ buf.drop (random.take 16).length
  hexEncodeToString buf1

/-! ## The data model -/

/-- The struct `Attachment`. -/
structure Attachment where
  Filename : Bytes
  Data : Bytes
  deriving DecidableEq

/-- The struct `Sender`. -/
structure Sender where
  Host : Bytes
  Port : Int
  Address : Bytes
  Password : Bytes
  Name : Bytes
  deriving DecidableEq

/-- The struct `Letter`, without its mutex. -/
structure Letter where
  address : Bytes
  name : Bytes
  Subject : Bytes
  content : Bytes
  receivers : List Bytes
  carbonCopy : List Bytes
  attachments : List Attachment
  body : Bytes
  deriving DecidableEq

/-- The function `NewSender`. -/
def NewSender (host : Bytes) (port : Int) (name address password : Bytes) : Sender :=
  { Host := host, Port := port, Address := address, Password := password, Name := name }

/-- The method `Sender.NewLetter`: every field not named is the zero value. -/
def Sender.NewLetter (s : Sender) : Letter :=
  { address := s.Address, name := s.Name, Subject := [], content := [], receivers := [],
    carbonCopy := [], attachments := [], body := [] }

/-- The function `NewAttachment`. -/
def NewAttachment (filename data : Bytes) : Attachment :=
  { Filename := filename, Data := data }

/-- The method `Letter.AddReceivers`: one `append` per address. -/
def Letter.AddReceivers (l : Letter) (addresses : List Bytes) : Letter :=
  addresses.foldl (fun l address => { l with receivers := l.receivers ++ [address] }) l

/-- The method `Letter.AddCarbonCopy`: one `append` per address. -/
def Letter.AddCarbonCopy (l : Letter) (addresses : List Bytes) : Letter :=
  addresses.foldl (fun l address => { l with carbonCopy := l.carbonCopy ++ [address] }) l

/-- The method `Letter.SetSubject`. -/
def Letter.SetSubject (l : Letter) (subject : Bytes) : Letter := { l with Subject := subject }

/-- The method `Letter.SetContent`. -/
def Letter.SetContent (l : Letter) (content : Bytes) : Letter := { l with content := content }

/-- The method `Letter.AddAttachments`: one `append` per item. -/
def Letter.AddAttachments (l : Letter) (attachments : List Attachment) : Letter :=
  attachments.foldl (fun l item => { l with attachments := l.attachments ++ [item] }) l

/-- The method `Letter.AddAttachment`. -/
def Letter.AddAttachment (l : Letter) (filename data : Bytes) : Letter :=
  l.AddAttachments [{ Filename := filename, Data := data }]

/-! ## The message builder -/

/-- The method `Letter.buildHeader`: a fresh buffer receives the three
formatted strings and becomes the body. -/
def Letter.buildHeader (boundary : Bytes) (l : Letter) : Letter :=
  let buffer : Bytes := []
  let buffer := buffer ++
    (str "From: " ++ l.name ++ str "<" ++ l.address ++ str ">\nTo: " ++
      Join l.receivers (str ",") ++ str "\nCC: " ++ Join l.carbonCopy (str ",") ++
      str "\nSubject: " ++ l.Subject ++ str "\nMIME-Version: 1.0\n")
  let buffer := buffer ++
    (str "Content-Type: multipart/mixed; boundary=" ++ boundary ++ str "\n\n")
  let buffer := buffer ++ (str "--" ++ boundary ++ str "\n")
  { l with body := buffer }

/-- The method `Letter.buildContent`: appends the text part to the body. -/
def Letter.buildContent (boundary : Bytes) (l : Letter) : Letter :=
  let buffer := l.body
  let buffer := buffer ++ str "Content-Type: text/plain; charset=UTF-8\n"
  let buffer := buffer ++ str "Content-Transfer-Encoding: quoted-printable\n\n"
  let buffer := buffer ++ l.content
  let buffer := buffer ++ (str "\n\n--" ++ boundary ++ str "\n")
  { l with body := buffer }

/-- The body of the loop `for i, item := range l.attachments` of
`buildAttachments`; `len` is `len(l.attachments)`. -/
def attachmentStep (boundary : Bytes) (len : Nat) (i : Nat) (item : Attachment)
    (buffer : Bytes) : Bytes :=
  let base64Name := EncodeToString item.Filename
  let buffer := buffer ++
    (str "Content-Type: application/octet-stream; charset=UTF-8;\n \tname=\"=?UTF-8?B?" ++
      base64Name ++ str "?=\"\n")
  let buffer := buffer ++ str "Content-Transfer-Encoding: base64\n"
  let buffer := buffer ++
    (str "Content-Disposition: attachment; filename=\"=?UTF-8?B?" ++ base64Name ++
      str "?=\"\n\n")
  let buffer := base64Wrap buffer item.Data
  if (i : Int) ≠ (len : Int) - 1 then buffer ++ (str "--" ++ boundary ++ str "\n")
  else buffer

/-- The loop of `buildAttachments` from index `i` on, over the items not yet
visited. -/
def attachmentLoop (boundary : Bytes) (len : Nat) : Nat → List Attachment → Bytes → Bytes
  | _, [], buffer => buffer
  | i, item :: rest, buffer =>
    attachmentLoop boundary len (i + 1) rest (attachmentStep boundary len i item buffer)

/-- The method `Letter.buildAttachments`. -/
def Letter.buildAttachments (boundary : Bytes) (l : Letter) : Letter :=
  let buffer := l.body
  let buffer := attachmentLoop boundary l.attachments.length 0 l.attachments buffer
  { l with body := buffer }

/-- The method `Letter.buildEnd`. -/
def Letter.buildEnd (boundary : Bytes) (l : Letter) : Letter :=
  let buffer := l.body
  let buffer := buffer ++ (str "\n--" ++ boundary ++ str "--\n")
  { l with body := buffer }

/-- The method `Letter.build`; `boundary` is the package-level variable. -/
def Letter.build (boundary : Bytes) (l : Letter) : Letter :=
  let l := { l with body := [] }
  let l := l.buildHeader boundary
  let l := l.buildContent boundary
  let l := l.buildAttachments boundary
  l.buildEnd boundary

/-! ## Lines and delimiters of a built message -/

/-- The lines of a text: the pieces between line feeds, where a final line
feed terminates the last line instead of opening an empty one. -/
def lines (s : Bytes) : List Bytes :=
  if (splitByte LF s).getLast? = some [] then (splitByte LF s).dropLast else splitByte LF s

/-- The delimiter line `--B` for the boundary token `B`. -/
def dashBoundary (B : Bytes) : Bytes := str "--" ++ B

/-- The closing delimiter line `--B--` for the boundary token `B`. -/
def closeDelimiter (B : Bytes) : Bytes := str "--" ++ B ++ str "--"

/-- A text of which no line is `t`. -/
def NoLine (t s : Bytes) : Prop := t ∉ lines s

instance (t s : Bytes) : Decidable (NoLine t s) := by unfold NoLine; infer_instance

/-- The text `buildAttachments` writes for one attachment, before any delimiter:
the `Content-Type` header (which the source folds onto a second line that
starts with a space and a tab), the `Content-Transfer-Encoding` header, the
`Content-Disposition` header, a blank line, and the wrapped base64 data. -/
def attachmentPart (item : Attachment) : Bytes :=
  str "Content-Type: application/octet-stream; charset=UTF-8;\n" ++
    str " \tname=\"=?UTF-8?B?" ++ EncodeToString item.Filename ++ str "?=\"\n" ++
    str "Content-Transfer-Encoding: base64\n" ++
    str "Content-Disposition: attachment; filename=\"=?UTF-8?B?" ++
    EncodeToString item.Filename ++ str "?=\"\n" ++
    str "\n" ++
    base64Wrap [] item.Data

/-- The header block of a message as the specification lays it out: the lines
`From`, `To`, `CC`, `Subject`, `MIME-Version: 1.0` and the multipart
`Content-Type` with the boundary token, one blank line, and the opening
delimiter line. -/
def headerBlock (B : Bytes) (l : Letter) : Bytes :=
  str "From: " ++ l.name ++ str "<" ++ l.address ++ str ">" ++ [LF] ++
    str "To: " ++ Join l.receivers (str ",") ++ [LF] ++
    str "CC: " ++ Join l.carbonCopy (str ",") ++ [LF] ++
    str "Subject: " ++ l.Subject ++ [LF] ++
    str "MIME-Version: 1.0" ++ [LF] ++
    str "Content-Type: multipart/mixed; boundary=" ++ B ++ [LF] ++
    [LF] ++
    dashBoundary B ++ [LF]

/-- The text part of a message: its two headers, a blank line, and the body
text as it is, followed by a blank line. -/
def textPart (l : Letter) : Bytes :=
  str "Content-Type: text/plain; charset=UTF-8" ++ [LF] ++
    str "Content-Transfer-Encoding: quoted-printable" ++ [LF] ++
    [LF] ++
    l.content ++ [LF] ++
    [LF]

/-- The characters of a delimiter line: the dash and the hexadecimal digits. -/
def IsTokenChar (c : Byte) : Prop := c = 45 ∨ c ∈ hextable

instance (c : Byte) : Decidable (IsTokenChar c) := by unfold IsTokenChar; infer_instance

/-- The sender name, the addresses, the subject and the body text of `l`
contain no line equal to `t`. -/
def FieldsClean (t : Bytes) (l : Letter) : Prop :=
  NoLine t l.name ∧ NoLine t l.address ∧ (∀ r ∈ l.receivers, NoLine t r) ∧
    (∀ r ∈ l.carbonCopy, NoLine t r) ∧ NoLine t l.Subject ∧ NoLine t l.content

instance (t : Bytes) (l : Letter) : Decidable (FieldsClean t l) := by
  unfold FieldsClean; infer_instance

/-- A letter with one small attachment, as `main` assembles it for the single
argument `a.txt`. -/
def sampleLetter : Letter :=
  { address := str "a@b.c", name := str "you", Subject := str "a.txt", content := str "a.txt",
    receivers := [str "a@b.c"], carbonCopy := [],
    attachments := [{ Filename := str "a.txt", Data := str "hi" }], body := [] }

/-- The boundary token when the random source delivers sixteen zero bytes. -/
def sampleBoundary : Bytes := generateBoundary (List.replicate 16 0)

/-- The `Content-Type` line of an attachment part as one unfolded line, with a
single space before `name=`. -/
def unfoldedContentType (filename : Bytes) : Bytes :=
  str "Content-Type: application/octet-stream; charset=UTF-8; name=\"=?UTF-8?B?" ++
    EncodeToString filename ++ str "?=\""

/-! ## The session driver

The SMTP client of `net/smtp` is modelled by the calls the driver issues on it
and by their effect on the transport connection. Following `net/smtp`:
`NewClient` closes the connection when the server greeting fails; `Quit` sends
`QUIT` and, when the server accepts it, closes the connection and returns the
result of that close; `Auth`, when the authentication fails after the exchange
has started, aborts by calling `Quit` itself, which closes the connection when
the server accepts that `QUIT`; `Close` closes the connection; no other call
closes it. Logging is not modelled. -/

/-- The value `smtp.PlainAuth(identity, username, password, host)`. -/
structure PlainAuth where
  identity : Bytes
  username : Bytes
  password : Bytes
  host : Bytes
  deriving DecidableEq

/-- The calls `sendMailUsingTLS` issues on the client. -/
inductive Call where
  | auth (a : PlainAuth)
  | mail (sender : Bytes)
  | rcpt (addr : Bytes)
  | data
  | write (msg : Bytes)
  | closeData
  | quit
  | close
  deriving DecidableEq

/-- How `dial` ends: `tls.Dial` fails, or the connection is established and
`smtp.NewClient` fails on the greeting, or the client is returned. -/
inductive DialResult (ε : Type) where
  | dialError (e : ε)
  | greetingError (e : ε)
  | connected

/-- The remote end: how dialing ends, whether the server advertises `AUTH`,
which error, if any, answers a call given the calls issued before it, and
whether the library has closed the connection in the course of a call that
returns an error: for `Auth`, whether the `QUIT` of its abort was accepted; for
`Quit`, whether the error is that of the close after an accepted `QUIT`. -/
structure Server (ε : Type) where
  dialResult : DialResult ε
  authOffered : Bool
  reply : List Call → Call → Option ε
  closedInCall : List Call → Call → Bool

/-- The session so far: the calls issued on the client, in order, and the
number of close operations on the transport connection. -/
structure Session where
  trace : List Call
  connCloses : Nat
  deriving DecidableEq

/-- The close operations on the connection in the course of the call `c`
issued after the calls `hist`: one for `Close`; one for a `Quit` that returns no
error; for a `Quit` or an `Auth` that returns an error, one when the library
closed the connection in that call; none for any other call. -/
def callCloses {ε : Type} (srv : Server ε) (hist : List Call) (c : Call) : Nat :=
  match c, srv.reply hist c with
  | Call.close, _ => 1
  | Call.quit, none => 1
  | Call.quit, some _ => if srv.closedInCall hist Call.quit then 1 else 0
  | Call.auth a, some _ => if srv.closedInCall hist (Call.auth a) then 1 else 0
  | _, _ => 0

/-- One call on the client: it is recorded, the server's answer is returned,
and the close operations of the call are counted. -/
def Session.issue {ε : Type} (srv : Server ε) (c : Call) (s : Session) : Session × Option ε :=
  let r := srv.reply s.trace c
  ({ trace := s.trace ++ [c], connCloses := s.connCloses + callCloses srv s.trace c }, r)

/-- The method `Sender.dial`: the client (a fresh session) or the error. A
failed greeting has already closed the connection. -/
def dial {ε : Type} (srv : Server ε) : Session × Option ε :=
  match srv.dialResult with
  | DialResult.dialError e => ({ trace := [], connCloses := 0 }, some e)
  | DialResult.greetingError e => ({ trace := [], connCloses := 1 }, some e)
  | DialResult.connected => ({ trace := [], connCloses := 0 }, none)

/-- A loop `for _, addr := range list { if err = client.Rcpt(addr); err != nil { return err } }`. -/
def rcptLoop {ε : Type} (srv : Server ε) : List Bytes → Session → Session × Option ε
  | [], s => (s, none)
  | addr :: rest, s =>
    match s.issue srv (Call.rcpt addr) with
    | (s1, some e) => (s1, some e)
    | (s1, none) => rcptLoop srv rest s1

/-- The statements of `sendMailUsingTLS` after `defer client.Close()`, up to
the `return` that is taken. -/
def sendCommands {ε : Type} (srv : Server ε) (auth : Option PlainAuth) (sender : Bytes)
    (toAddrs cc : List Bytes) (msg : Bytes) (s : Session) : Session × Option ε :=
  let afterAuth : Session × Option ε :=
    match auth with
    | some a => if srv.authOffered then s.issue srv (Call.auth a) else (s, none)
    | none => (s, none)
  match afterAuth with
  | (s1, some e) => (s1, some e)
  | (s1, none) =>
    match s1.issue srv (Call.mail sender) with
    | (s2, some e) => (s2, some e)
    | (s2, none) =>
      match rcptLoop srv toAddrs s2 with
      | (s3, some e) => (s3, some e)
      | (s3, none) =>
        match rcptLoop srv cc s3 with
        | (s4, some e) => (s4, some e)
        | (s4, none) =>
          match s4.issue srv Call.data with
          | (s5, some e) => (s5, some e)
          | (s5, none) =>
            match s5.issue srv (Call.write msg) with
            | (s6, some e) => (s6, some e)
            | (s6, none) =>
              match s6.issue srv Call.closeData with
              | (s7, some e) => (s7, some e)
              | (s7, none) => s7.issue srv Call.quit

/-- The method `Sender.sendMailUsingTLS`: the final session and the returned
error. The deferred `client.Close()` runs after the result is fixed. -/
def sendMailUsingTLS {ε : Type} (srv : Server ε) (auth : Option PlainAuth) (sender : Bytes)
    (toAddrs cc : List Bytes) (msg : Bytes) : Session × Option ε :=
  match dial srv with
  | (s0, some e) => (s0, some e)
  | (s0, none) =>
    let (s1, err) := sendCommands srv auth sender toAddrs cc msg s0
    ((s1.issue srv Call.close).1, err)

/-- The method `Sender.Send`: the built letter, the final session and the
returned error. -/
def Sender.Send {ε : Type} (s : Sender) (boundary : Bytes) (srv : Server ε) (l : Letter) :
    Letter × Session × Option ε :=
  let l1 := l.build boundary
  let auth : PlainAuth :=
    { identity := [], username := s.Address, password := s.Password, host := s.Host }
  (l1, sendMailUsingTLS srv (some auth) s.Address l1.receivers l1.carbonCopy l1.body)

/-- The steps of a transaction in the order the specification fixes: `AUTH` if
offered, `MAIL`, one `RCPT` per recipient, one `RCPT` per carbon-copy address,
`DATA`, the write of the message, the close of the data, `QUIT`. -/
def transactionPlan (authOffered : Bool) (auth : Option PlainAuth) (sender : Bytes)
    (toAddrs cc : List Bytes) (msg : Bytes) : List Call :=
  (match auth with
    | some a => if authOffered then [Call.auth a] else []
    | none => []) ++
  [Call.mail sender] ++ toAddrs.map Call.rcpt ++ cc.map Call.rcpt ++
  [Call.data, Call.write msg, Call.closeData, Call.quit]

/-- Issue the steps of a plan in order after the calls `hist`, stop at the
first that fails and return its error: the calls issued and the result. -/
def runPlan {ε : Type} (reply : List Call → Call → Option ε) :
    List Call → List Call → List Call × Option ε
  | [], hist => (hist, none)
  | c :: rest, hist =>
    match reply hist c with
    | some e => (hist ++ [c], some e)
    | none => runPlan reply rest (hist ++ [c])

/-- Issue the calls of a list in order on the client, stopping at the first
that fails. -/
def issueAll {ε : Type} (srv : Server ε) : List Call → Session → Session × Option ε
  | [], s => (s, none)
  | c :: rest, s =>
    match s.issue srv c with
    | (s1, some e) => (s1, some e)
    | (s1, none) => issueAll srv rest s1

/-- The calls in front of the second `RCPT` of a transaction. -/
def callsBeforeSecondRcpt (authOffered : Bool) (auth : Option PlainAuth) (sender r1 : Bytes) :
    List Call :=
  (match auth with
    | some a => if authOffered then [Call.auth a] else []
    | none => []) ++ [Call.mail sender, Call.rcpt r1]

/-- A server that accepts every call except the `RCPT` for `bad`, which it
answers with error `7`. -/
def rejectingServer (bad : Bytes) : Server Nat :=
  { dialResult := DialResult.connected, authOffered := true,
    reply := fun _ c => if c = Call.rcpt bad then some 7 else none,
    closedInCall := fun _ _ => false }

/-- A server that accepts every call. -/
def acceptingServer : Server Nat :=
  { dialResult := DialResult.connected, authOffered := true, reply := fun _ _ => none,
    closedInCall := fun _ _ => false }

/-- A server that rejects the authentication with error `5` and accepts the
`QUIT` with which `Auth` aborts. -/
def authRejectingServer : Server Nat :=
  { dialResult := DialResult.connected, authOffered := true,
    reply := fun hist _ => if hist = [] then some 5 else none,
    closedInCall := fun _ _ => true }

/-- A server whose greeting fails with error `3`. -/
def greetingFailingServer : Server Nat :=
  { dialResult := DialResult.greetingError 3, authOffered := true, reply := fun _ _ => none,
    closedInCall := fun _ _ => false }

/-- The credentials `Send` passes for the sample letter. -/
def sampleAuth : PlainAuth :=
  { identity := [], username := str "a@b.c", password := str "pw", host := str "smtp.b.c" }

/-- The sender of the sample letter. -/
def sampleSender : Sender :=
  NewSender (str "smtp.b.c") 465 (str "you") (str "a@b.c") (str "pw")

/-! ## `main` -/

/-- How a step of `main` ends: with a value, with `os.Exit(code)`, or with a
run-time panic (an index out of range). -/
inductive Outcome (α : Type) where
  | value (a : α)
  | exit (code : Nat)
  | fault
  deriving DecidableEq

/-- The constant `DefServerStr`. -/
def DefServerStr : Bytes := str "smtp.163.com:465"

/-- `strconv.Atoi` on a 64-bit platform: an optional sign, then one or more
decimal digits, with the value in the range of `int`; `none` is an error. -/
def Atoi (s : Bytes) : Option Int :=
  let neg : Bool := s.head? = some 45
  let digits : Bytes := if s.head? = some 45 ∨ s.head? = some 43 then s.tail else s
  if digits = [] then none
  else if digits.all (fun c => 48 ≤ c.val ∧ c.val ≤ 57) then
    let n : Nat := digits.foldl (fun n c => n * 10 + (c.val - 48)) 0
    let v : Int := if neg then -(n : Int) else (n : Int)
    if -(2 ^ 63 : Int) ≤ v ∧ v < (2 ^ 63 : Int) then some v else none
  else none

/-- The condition `"" == a[0] || "" == a[1]` on a slice `a`: its value, or
`none` when an index it evaluates is out of range. The second operand is
evaluated only when the first is false. -/
def emptyFirstOrSecond (a : List Bytes) : Option Bool :=
  match a[0]? with
  | none => none
  | some x =>
    if x = [] then some true
    else
      match a[1]? with
      | none => none
      | some y => some (decide (y = []))

/-- The settings `main` derives from the environment. -/
structure Config where
  host : Bytes
  port : Int
  address : Bytes
  secret : Bytes
  deriving DecidableEq

/-- The configuration step of `main`, from `os.Getenv("eSvrSMTP")` to the
arguments of `NewSender`; `envSV` and `envUP` are the values of the two
environment variables (empty when unset). -/
def mainConfig (envSV envUP : Bytes) : Outcome Config :=
  let envUP := if envUP = [] then str "hello@163.com:helloworld" else envUP
  let aUP := splitByte 58 envUP
  match emptyFirstOrSecond aUP with
  | none => Outcome.fault
  | some true => Outcome.exit 1
  | some false =>
    let envSV := if envSV = [] then DefServerStr else envSV
    let aEml := splitByte 58 envSV
    match emptyFirstOrSecond aEml with
    | none => Outcome.fault
    | some c =>
      let aEml := if c then splitByte 58 DefServerStr else aEml
      match aEml[1]?, aEml[0]?, aUP[0]?, aUP[1]? with
      | some portStr, some host, some address, some secret =>
        match Atoi portStr with
        | none => Outcome.exit 2
        | some nPort =>
          Outcome.value { host := host, port := nPort, address := address, secret := secret }
      | _, _, _, _ => Outcome.fault

/-- `filepath.Base` with `/` as the separator: trailing separators are
dropped, the last element is returned, an empty path gives `.` and a path of
separators only gives `/`. -/
def filepathBase (path : Bytes) : Bytes :=
  if path = [] then str "."
  else
    let stripped := (path.reverse.dropWhile (fun c => c = 47)).reverse
    let last := (splitByte 47 stripped).getLastD []
    if last = [] then str "/" else last

/-- The loop `for n := 0; n < fileCount; n++` of `main` from index `n` on:
`paths` are the arguments not yet visited, `fs` is the file system as
`os.ReadFile` sees it (`none` is an error). -/
def mainLoop (fs : Bytes → Option Bytes) :
    Nat → List Bytes → Bytes → Letter → Outcome (Bytes × Letter)
  | _, [], sName, l => Outcome.value (sName, l)
  | n, attachPathA :: rest, sName, l =>
    let attachNameA := filepathBase attachPathA
    let sName := if 0 = n then attachNameA else sName ++ str ":" ++ attachNameA
    match fs attachPathA with
    | none => Outcome.exit 3
    | some attachment1 => mainLoop fs (n + 1) rest sName (l.AddAttachment attachNameA attachment1)

/-- The part of `main` that assembles the letter: the argument check, the
configuration, the new letter with its receiver, the attachment loop, and
`SetSubject` and `SetContent`. -/
def mainLetter (args : List Bytes) (envSV envUP : Bytes) (fs : Bytes → Option Bytes) :
    Outcome (Sender × Letter) :=
  if 0 = args.length then Outcome.exit 0
  else
    match mainConfig envSV envUP with
    | Outcome.fault => Outcome.fault
    | Outcome.exit code => Outcome.exit code
    | Outcome.value cfg =>
      let sender := NewSender cfg.host cfg.port (str "you") cfg.address cfg.secret
      let letterInstance := sender.NewLetter
      let letterInstance := letterInstance.AddReceivers [cfg.address]
      match mainLoop fs 0 args [] letterInstance with
      | Outcome.fault => Outcome.fault
      | Outcome.exit code => Outcome.exit code
      | Outcome.value (sName, letterInstance) =>
        let letterInstance := letterInstance.SetSubject sName
        let letterInstance := letterInstance.SetContent sName
        Outcome.value (sender, letterInstance)

/-- The method `Letter.Dump`: the letter afterwards and the text printed. -/
def Letter.Dump (boundary : Bytes) (l : Letter) : Letter × Bytes :=
  let l := if l.body.length = 0 then l.build boundary else l
  (l, l.body ++ str "\n")

/-- The function `main`: the exit status, or `fault` for a run-time panic. -/
def main {ε : Type} (args : List Bytes) (bPrintEml : Bool) (envSV envUP : Bytes)
    (fs : Bytes → Option Bytes) (boundary : Bytes) (srv : Server ε) : Outcome Unit :=
  match mainLetter args envSV envUP fs with
  | Outcome.fault => Outcome.fault
  | Outcome.exit code => Outcome.exit code
  | Outcome.value (sender, letterInstance) =>
    let letterInstance := if bPrintEml then (letterInstance.Dump boundary).1 else letterInstance
    match (sender.Send boundary srv letterInstance).2.2 with
    | some _ => Outcome.exit 4
    | none => Outcome.value ()

/-- A file system in which every file reads as the two bytes `hi`. -/
def sampleFiles : Bytes → Option Bytes := fun _ => some (str "hi")

/-! ## Theorems -/

/-! ## Facts about the base64 alphabet -/

theorem decChar_encChar_fin : ∀ i : Fin 64, decChar (encChar i.val) = some i.val := by decide

theorem decChar_encChar (i : Nat) (h : i < 64) : decChar (encChar i) = some i :=
  decChar_encChar_fin ⟨i, h⟩

theorem encChar_plain_fin :
    ∀ i : Fin 64, encChar i.val ≠ CR ∧ encChar i.val ≠ LF ∧ encChar i.val ≠ StdPadding := by
  decide

theorem encChar_plain (i : Nat) (h : i < 64) :
    encChar i ≠ CR ∧ encChar i ≠ LF ∧ encChar i ≠ StdPadding :=
  encChar_plain_fin ⟨i, h⟩

theorem stdPadding_plain : StdPadding ≠ CR ∧ StdPadding ≠ LF := by decide

theorem IsB64.ne_cr {c : Byte} (h : IsB64 c) : c ≠ CR := by
  rcases h with ⟨i, hi, rfl⟩ | rfl
  · exact (encChar_plain i hi).1
  · exact stdPadding_plain.1

theorem IsB64.ne_lf {c : Byte} (h : IsB64 c) : c ≠ LF := by
  rcases h with ⟨i, hi, rfl⟩ | rfl
  · exact (encChar_plain i hi).2.1
  · exact stdPadding_plain.2

theorem isB64_encChar_mod (n : Nat) : IsB64 (encChar (n % 64)) :=
  Or.inl ⟨n % 64, Nat.mod_lt _ (by decide), rfl⟩

theorem stdEncode_isB64 : ∀ (b : Bytes) (c : Byte), c ∈ stdEncode b → IsB64 c
  | [], c, h => by simp [stdEncode] at h
  | [a], c, h => by
    simp only [stdEncode, List.mem_cons, List.mem_singleton, List.not_mem_nil, or_false] at h
    rcases h with rfl | rfl | rfl | rfl
    · exact isB64_encChar_mod _
    · exact isB64_encChar_mod _
    · exact Or.inr rfl
    · exact Or.inr rfl
  | [a, b], c, h => by
    simp only [stdEncode, List.mem_cons, List.mem_singleton, List.not_mem_nil, or_false] at h
    rcases h with rfl | rfl | rfl | rfl
    · exact isB64_encChar_mod _
    · exact isB64_encChar_mod _
    · exact isB64_encChar_mod _
    · exact Or.inr rfl
  | a :: b :: c' :: rest, c, h => by
    simp only [stdEncode, List.mem_cons] at h
    rcases h with rfl | rfl | rfl | rfl | h
    · exact isB64_encChar_mod _
    · exact isB64_encChar_mod _
    · exact isB64_encChar_mod _
    · exact isB64_encChar_mod _
    · exact stdEncode_isB64 rest c h

theorem stdEncode_length : ∀ b : Bytes, (stdEncode b).length = EncodedLen b.length
  | [] => rfl
  | [_] => by simp [stdEncode, EncodedLen]
  | [_, _] => by simp [stdEncode, EncodedLen]
  | _ :: _ :: _ :: rest => by
    simp only [stdEncode, List.length_cons, stdEncode_length rest, EncodedLen]
    omega

theorem stdEncode_eq_nil {b : Bytes} (h : stdEncode b = []) : b = [] := by
  have := congrArg List.length h
  rw [stdEncode_length] at this
  simp only [EncodedLen, List.length_nil] at this
  have : b.length = 0 := by omega
  exact List.length_eq_zero.mp this

/-- Encoding distributes over a split at a multiple of three bytes. -/
theorem stdEncode_append : ∀ (n : Nat) (x y : Bytes), x.length = 3 * n →
    stdEncode (x ++ y) = stdEncode x ++ stdEncode y
  | 0, x, y, h => by
    have : x = [] := List.length_eq_zero.mp (by omega)
    subst this
    rfl
  | n + 1, x, y, h => by
    match x, h with
    | a :: b :: c :: rest, h =>
      have hr : rest.length = 3 * n := by simp only [List.length_cons] at h; omega
      have ih := stdEncode_append n rest y hr
      rw [show (a :: b :: c :: rest) ++ y = a :: b :: c :: (rest ++ y) from rfl]
      simp only [stdEncode, ih, List.cons_append]
    | [], h => simp at h
    | [_], h => simp at h; omega
    | [_, _], h => simp at h; omega

/-! ## Round trip of the codec -/

theorem decQuad_encode (a b c : Byte) :
    decQuad (encChar ((a.val * 65536 + b.val * 256 + c.val) / 262144 % 64))
      (encChar ((a.val * 65536 + b.val * 256 + c.val) / 4096 % 64))
      (encChar ((a.val * 65536 + b.val * 256 + c.val) / 64 % 64))
      (encChar ((a.val * 65536 + b.val * 256 + c.val) % 64)) = some [a, b, c] := by
  have ha := a.isLt
  have hb := b.isLt
  have hc := c.isLt
  simp only [decQuad, decChar_encChar _ (Nat.mod_lt _ (by decide : 0 < 64)), Option.bind_eq_bind,
    Option.some_bind, Option.pure_def, Option.some.injEq, List.cons.injEq, and_true]
  refine ⟨Fin.ext ?_, Fin.ext ?_, Fin.ext ?_⟩ <;> simp only [Fin.ofNat, Fin.val_mk] <;> omega

theorem stdDecode_stdEncode : ∀ b : Bytes, stdDecode (stdEncode b) = some b
  | [] => rfl
  | [a] => by
    have ha := a.isLt
    have h1 := (encChar_plain (a.val * 65536 / 262144 % 64) (Nat.mod_lt _ (by decide)))
    simp only [stdEncode, stdDecode, decLast, if_true, decChar_encChar _ (Nat.mod_lt _ (by decide : 0 < 64)),
      Option.bind_eq_bind, Option.some_bind, Option.pure_def, Option.some.injEq, List.cons.injEq, and_true]
    refine Fin.ext ?_
    simp only [Fin.ofNat, Fin.val_mk]
    omega
  | [a, b] => by
    have ha := a.isLt
    have hb := b.isLt
    have h1 := (encChar_plain ((a.val * 65536 + b.val * 256) / 64 % 64) (Nat.mod_lt _ (by decide))).2.2
    simp only [stdEncode, stdDecode, decLast, if_true, h1, if_false,
      decChar_encChar _ (Nat.mod_lt _ (by decide : 0 < 64)),
      Option.bind_eq_bind, Option.some_bind, Option.pure_def, Option.some.injEq, List.cons.injEq, and_true]
    refine ⟨Fin.ext ?_, Fin.ext ?_⟩ <;> simp only [Fin.ofNat, Fin.val_mk] <;> omega
  | a :: b :: c :: rest => by
    have ih := stdDecode_stdEncode rest
    have h3 := (encChar_plain ((a.val * 65536 + b.val * 256 + c.val) % 64) (Nat.mod_lt _ (by decide))).2.2
    simp only [stdEncode, stdDecode]
    by_cases hr : stdEncode rest = []
    · have : rest = [] := stdEncode_eq_nil hr
      subst this
      simp only [hr, if_true, decLast, h3, if_false, decQuad_encode]
    · simp only [hr, if_false, decQuad_encode, ih, Option.bind_eq_bind, Option.some_bind,
        Option.pure_def, List.cons_append, List.nil_append]

/-! ## The line structure of `base64Wrap`: proofs -/

theorem fullLines_small {b : Bytes} (h : b.length < maxRaw) : fullLines b = [] ∧ tailRaw b = b := by
  have h0 : b.length / maxRaw = 0 := Nat.div_eq_of_lt h
  simp [fullLines, tailRaw, h0]

theorem fullLines_step {b : Bytes} (h : maxRaw ≤ b.length) :
    fullLines b = stdEncode (b.take maxRaw) :: fullLines (b.drop maxRaw) ∧
      tailRaw b = tailRaw (b.drop maxRaw) := by
  have hq : b.length / maxRaw = (b.length - maxRaw) / maxRaw + 1 := by
    simp only [maxRaw] at h ⊢
    omega
  constructor
  · simp only [fullLines, List.length_drop, hq, List.range_succ_eq_map, List.map_cons,
      List.map_map, rawChunk, Nat.mul_zero, List.drop_zero, List.cons.injEq, true_and]
    apply List.map_congr_left
    intro i _
    simp only [Function.comp, List.drop_drop, Nat.mul_succ]
    congr 3
    omega
  · simp only [tailRaw, List.length_drop, hq, List.drop_drop, Nat.mul_succ]
    congr 1
    omega

theorem fullLines_length (b : Bytes) : (fullLines b).length = b.length / maxRaw := by
  simp [fullLines]

theorem tailRaw_length (b : Bytes) : (tailRaw b).length = b.length % maxRaw := by
  simp only [tailRaw, List.length_drop, maxRaw]
  omega

theorem rawChunk_length {b : Bytes} {i : Nat} (h : i < b.length / maxRaw) :
    (rawChunk b i).length = maxRaw := by
  have h1 : maxRaw * (i + 1) ≤ b.length :=
    Nat.le_trans (Nat.mul_le_mul_left _ h) (Nat.mul_div_le _ _)
  simp only [rawChunk, List.length_take, List.length_drop, maxRaw] at h1 ⊢
  omega

/-- The loop of `base64Wrap` writes the full lines, each followed by CRLF, and
leaves the raw tail; the iteration bound `len(b)` is never the reason it stops. -/
theorem base64WrapLoop_eq : ∀ (fuel : Nat) (w buffer b : Bytes), b.length ≤ fuel →
    buffer.drop MaxLineLength = crlf →
    ∃ buffer1, base64WrapLoop fuel w buffer b = (w ++ joinCRLF (fullLines b), buffer1, tailRaw b)
  | 0, w, buffer, b, hf, _ => by
    have hb : b = [] := List.length_eq_zero.mp (Nat.le_zero.mp hf)
    subst hb
    exact ⟨buffer, by simp [base64WrapLoop, fullLines, tailRaw, joinCRLF]⟩
  | fuel + 1, w, buffer, b, hf, hbuf => by
    by_cases h : maxRaw ≤ b.length
    · have hlen : (b.take maxRaw).length = maxRaw := by
        simp only [List.length_take]; omega
      have henc : Encode buffer (b.take maxRaw) = stdEncode (b.take maxRaw) ++ crlf := by
        simp only [Encode, hlen]
        exact congrArg _ hbuf
      have hdrop : (Encode buffer (b.take maxRaw)).drop MaxLineLength = crlf := by
        rw [henc]
        have : (stdEncode (b.take maxRaw)).length = MaxLineLength := by
          rw [stdEncode_length, hlen]; rfl
        rw [← this, List.drop_left]
      have hf1 : (b.drop maxRaw).length ≤ fuel := by
        simp only [List.length_drop, maxRaw] at h ⊢; omega
      obtain ⟨buffer1, ih⟩ := base64WrapLoop_eq fuel (w ++ Encode buffer (b.take maxRaw))
        (Encode buffer (b.take maxRaw)) (b.drop maxRaw) hf1 hdrop
      refine ⟨buffer1, ?_⟩
      rw [henc] at ih
      simp only [base64WrapLoop, h, if_true, (fullLines_step h).1, (fullLines_step h).2, henc, ih]
      simp only [joinCRLF, List.map_cons, List.flatten_cons, List.append_assoc]
    · have hs := fullLines_small (Nat.lt_of_not_le h)
      exact ⟨buffer, by simp [base64WrapLoop, h, hs.1, hs.2, joinCRLF]⟩

/-- The output of `base64Wrap`: what was written before, then the wrapped lines. -/
theorem base64Wrap_eq (w b : Bytes) : base64Wrap w b = w ++ joinCRLF (wrapLines b) := by
  obtain ⟨buffer1, h⟩ := base64WrapLoop_eq b.length w
    ((List.replicate (MaxLineLength + crlf.length) (0 : Byte)).take MaxLineLength ++ crlf) b
    (Nat.le_refl _) (by decide)
  simp only [base64Wrap, h]
  by_cases ht : 0 < (tailRaw b).length
  · simp only [ht, if_true, wrapLines, joinCRLF, List.map_append, List.flatten_append,
      List.map_cons, List.map_nil, List.flatten_cons, List.flatten_nil, List.append_nil,
      Encode, List.append_assoc]
    congr 2
    rw [List.drop_take, Nat.sub_self, List.take_zero, List.nil_append]
  · simp [ht, wrapLines]

theorem flatten_fullLines : ∀ (n : Nat) (b : Bytes), b.length / maxRaw = n →
    (fullLines b).flatten ++ stdEncode (tailRaw b) = stdEncode b
  | 0, b, h => by
    have hs := fullLines_small (b := b) (by
      rcases Nat.div_eq_zero_iff (by decide : 0 < maxRaw) |>.mp h with h1
      exact h1)
    simp [hs.1, hs.2]
  | n + 1, b, h => by
    have hge : maxRaw ≤ b.length := by
      simp only [maxRaw] at h ⊢; omega
    have hq : (b.drop maxRaw).length / maxRaw = n := by
      simp only [List.length_drop, maxRaw] at h ⊢; omega
    have ih := flatten_fullLines n (b.drop maxRaw) hq
    have hlen : (b.take maxRaw).length = 3 * 19 := by
      simp only [List.length_take, maxRaw] at hge ⊢; omega
    rw [(fullLines_step hge).1, (fullLines_step hge).2, List.flatten_cons, List.append_assoc, ih,
      ← stdEncode_append 19 _ _ hlen, List.take_append_drop]

theorem wrapLines_flatten (b : Bytes) : (wrapLines b).flatten = stdEncode b := by
  rw [← flatten_fullLines _ b rfl]
  by_cases ht : 0 < (tailRaw b).length
  · simp [wrapLines, ht]
  · have : tailRaw b = [] := List.length_eq_zero.mp (by omega)
    simp [wrapLines, this, stdEncode]

theorem wrapLines_isB64 {b : Bytes} {l : Bytes} (hl : l ∈ wrapLines b) : ∀ c ∈ l, IsB64 c := by
  simp only [wrapLines, fullLines, List.mem_append, List.mem_map, List.mem_range] at hl
  rcases hl with ⟨i, _, rfl⟩ | hl
  · exact stdEncode_isB64 _
  · split at hl
    · rw [List.mem_singleton] at hl
      subst hl
      exact stdEncode_isB64 _
    · simp at hl

theorem stripCRLF_joinCRLF : ∀ ls : List Bytes, (∀ l ∈ ls, ∀ c ∈ l, IsB64 c) →
    stripCRLF (joinCRLF ls) = ls.flatten
  | [], _ => rfl
  | l :: ls, h => by
    have ih := stripCRLF_joinCRLF ls (fun l' hl' => h l' (List.mem_cons_of_mem _ hl'))
    have hl : l.filter (fun c => c ≠ CR ∧ c ≠ LF) = l := by
      rw [List.filter_eq_self]
      intro c hc
      have := h l (List.mem_cons_self _ _) c hc
      simp [this.ne_cr, this.ne_lf]
    simp only [stripCRLF, joinCRLF] at ih ⊢
    simp only [List.map_cons, List.flatten_cons, List.filter_append, hl, ih, List.append_assoc]
    have : crlf.filter (fun c => c ≠ CR ∧ c ≠ LF) = [] := by decide
    rw [this, List.nil_append]

theorem wrapLines_length (b : Bytes) :
    (wrapLines b).length = b.length / maxRaw + (if 0 < (tailRaw b).length then 1 else 0) := by
  by_cases h : 0 < (tailRaw b).length <;> simp [wrapLines, fullLines_length, h]

theorem wrapLines_getD {b : Bytes} {i : Nat} (h : i < b.length / maxRaw) :
    (wrapLines b).getD i [] = stdEncode (rawChunk b i) := by
  have hi : i < (fullLines b).length := by rw [fullLines_length]; exact h
  rw [List.getD_eq_getElem?_getD, wrapLines, List.getElem?_append_left hi]
  simp [fullLines, h]

theorem wrapLines_line_length {b l : Bytes} (hl : l ∈ wrapLines b) :
    1 ≤ l.length ∧ l.length ≤ MaxLineLength := by
  simp only [wrapLines, fullLines, List.mem_append, List.mem_map, List.mem_range] at hl
  rcases hl with ⟨i, hi, rfl⟩ | hl
  · rw [stdEncode_length, rawChunk_length hi]
    decide
  · split at hl
    · rename_i ht
      rw [List.mem_singleton] at hl
      subst hl
      have h2 := tailRaw_length b
      rw [stdEncode_length]
      simp only [EncodedLen, MaxLineLength, maxRaw] at *
      omega
    · simp at hl

/-- C1: for every byte sequence `b` (and every earlier writer content `w`), what
`base64Wrap` writes for `b`, with every CR and LF removed, decodes as standard
base64 to exactly `b`. -/
theorem base64Wrap_roundtrip (w b : Bytes) :
    ∃ out, base64Wrap w b = w ++ out ∧ stdDecode (stripCRLF out) = some b := by
  refine ⟨joinCRLF (wrapLines b), base64Wrap_eq w b, ?_⟩
  rw [stripCRLF_joinCRLF _ (fun l hl => wrapLines_isB64 hl), wrapLines_flatten,
    stdDecode_stdEncode]

theorem wrapLines_length_ceil (b : Bytes) : (wrapLines b).length = (b.length + 56) / 57 := by
  rw [wrapLines_length]
  have h := tailRaw_length b
  simp only [maxRaw] at h ⊢
  rw [h]
  split <;> omega

theorem rawChunk_last (b : Bytes) : rawChunk b (b.length / maxRaw) = tailRaw b := by
  have h := tailRaw_length b
  simp only [rawChunk]
  apply List.take_of_length_le
  show (tailRaw b).length ≤ maxRaw
  rw [h]
  exact Nat.le_of_lt (Nat.mod_lt _ (by decide))

/-- Every line of the wrapped encoding is the encoding of the group of raw
bytes at its index, and that group is not empty. -/
theorem wrapLines_getD_all {b : Bytes} {i : Nat} (h : i < (wrapLines b).length) :
    (wrapLines b).getD i [] = stdEncode (rawChunk b i) ∧ 1 ≤ (rawChunk b i).length := by
  by_cases hi : i < b.length / maxRaw
  · refine ⟨wrapLines_getD hi, ?_⟩
    rw [rawChunk_length hi]
    decide
  · have hlen := wrapLines_length b
    by_cases ht : 0 < (tailRaw b).length
    · have hi2 : i = b.length / maxRaw := by
        rw [hlen, if_pos ht] at h
        omega
      subst hi2
      rw [rawChunk_last]
      refine ⟨?_, ht⟩
      have hf : (fullLines b).length ≤ b.length / maxRaw := by rw [fullLines_length]
      rw [List.getD_eq_getElem?_getD, wrapLines, if_pos ht, List.getElem?_append_right hf,
        fullLines_length, Nat.sub_self]
      rfl
    · rw [hlen, if_neg ht] at h
      omega

/-- C2: for every byte sequence `b`, what `base64Wrap` writes is a sequence of
lines each terminated by CRLF (no line contains a CR or LF of its own); every
line except possibly the last has exactly 76 characters and is the encoding of
exactly 57 input bytes (the `i`-th group of 57 bytes of `b`); the last line has
between 1 and 76 characters; and for empty `b` nothing is written. The number
of lines is `len(b)` divided by 57, rounded up, so a non-empty `b` gives at
least one line, and every line, the last included, is the encoding of the
non-empty group of raw bytes at its index. -/
theorem base64Wrap_lines (w b : Bytes) :
    ∃ lines : List Bytes, base64Wrap w b = w ++ joinCRLF lines ∧
      (∀ l ∈ lines, CR ∉ l ∧ LF ∉ l) ∧
      (∀ i, i + 1 < lines.length →
        (lines.getD i []).length = 76 ∧ (rawChunk b i).length = 57 ∧
          lines.getD i [] = stdEncode (rawChunk b i)) ∧
      (∀ l, lines.getLast? = some l → 1 ≤ l.length ∧ l.length ≤ 76) ∧
      (b = [] → lines = [] ∧ base64Wrap w b = w) ∧
      lines.length = (b.length + 56) / 57 ∧
      (b ≠ [] → lines ≠ [] ∧
        ∃ l, lines.getLast? = some l ∧ 1 ≤ l.length ∧ l.length ≤ 76 ∧
          l = stdEncode (b.drop (57 * (lines.length - 1)))) ∧
      (∀ i, i < lines.length →
        lines.getD i [] = stdEncode (rawChunk b i) ∧ 1 ≤ (rawChunk b i).length ∧
          (rawChunk b i).length ≤ 57) := by
  refine ⟨wrapLines b, base64Wrap_eq w b, ?_, ?_, ?_, ?_, wrapLines_length_ceil b, ?_, ?_⟩
  · intro l hl
    exact ⟨fun h => (wrapLines_isB64 hl _ h).ne_cr rfl, fun h => (wrapLines_isB64 hl _ h).ne_lf rfl⟩
  · intro i hi
    have hi1 : i < b.length / maxRaw := by
      rw [wrapLines_length] at hi
      split at hi <;> omega
    have hlen := rawChunk_length hi1
    rw [wrapLines_getD hi1, stdEncode_length, hlen]
    exact ⟨rfl, rfl, rfl⟩
  · intro l hl
    exact wrapLines_line_length (List.mem_of_getLast?_eq_some hl)
  · intro hb
    subst hb
    have : wrapLines [] = [] := by decide
    rw [base64Wrap_eq, this]
    exact ⟨rfl, by simp [joinCRLF]⟩
  · intro hb
    have hpos : 0 < b.length := List.length_pos.mpr hb
    have hlen := wrapLines_length_ceil b
    have hne : wrapLines b ≠ [] := by
      intro h0
      rw [h0, List.length_nil] at hlen
      omega
    refine ⟨hne, (wrapLines b).getLast hne, List.getLast?_eq_getLast _ hne, ?_⟩
    have hmem := wrapLines_line_length (List.getLast_mem hne)
    refine ⟨hmem.1, hmem.2, ?_⟩
    have hidx : (wrapLines b).length - 1 < (wrapLines b).length := by omega
    have hall := (wrapLines_getD_all hidx).1
    rw [List.getD_eq_getElem?_getD, List.getElem?_eq_getElem hidx, Option.getD_some] at hall
    rw [List.getLast_eq_getElem, hall, rawChunk]
    congr 1
    apply List.take_of_length_le
    rw [List.length_drop, hlen]
    show b.length - 57 * ((b.length + 56) / 57 - 1) ≤ 57
    omega
  · intro i hi
    have h := wrapLines_getD_all hi
    refine ⟨h.1, h.2, ?_⟩
    simp only [rawChunk, List.length_take]
    exact Nat.min_le_left _ _

/-! ## Splitting at a separator byte -/

theorem splitByte_ne_nil (sep : Byte) : ∀ s : Bytes, splitByte sep s ≠ []
  | [] => by simp [splitByte]
  | c :: cs => by
    by_cases h : c = sep <;> simp [splitByte, h]

theorem headD_cons_tail {α : Type} {l : List α} (d : α) (h : l ≠ []) : l.headD d :: l.tail = l := by
  cases l with
  | nil => exact absurd rfl h
  | cons a t => rfl

theorem splitByte_of_not_mem (sep : Byte) : ∀ m : Bytes, sep ∉ m → splitByte sep m = [m]
  | [], _ => rfl
  | c :: cs, h => by
    have hc : c ≠ sep := fun e => h (e ▸ List.mem_cons_self _ _)
    have ih := splitByte_of_not_mem sep cs (fun e => h (List.mem_cons_of_mem _ e))
    simp [splitByte, hc, ih]

/-- Splitting a concatenation: the last piece of the left part and the first
piece of the right part merge, every other piece is kept. -/
theorem splitByte_append (sep : Byte) : ∀ x y : Bytes,
    splitByte sep (x ++ y) =
      (splitByte sep x).dropLast ++
        ((splitByte sep x).getLastD [] ++ (splitByte sep y).headD []) :: (splitByte sep y).tail
  | [], y => by
    show splitByte sep y = (([] : Bytes) ++ (splitByte sep y).headD []) :: (splitByte sep y).tail
    rw [List.nil_append, headD_cons_tail [] (splitByte_ne_nil sep y)]
  | c :: cs, y => by
    have ih := splitByte_append sep cs y
    have hne := splitByte_ne_nil sep cs
    obtain ⟨l, ls, hs⟩ := List.exists_cons_of_ne_nil hne
    rw [hs] at ih
    by_cases h : c = sep
    · have e1 : splitByte sep (c :: (cs ++ y)) = [] :: splitByte sep (cs ++ y) := by
        simp [splitByte, h]
      have e2 : splitByte sep (c :: cs) = [] :: l :: ls := by simp [splitByte, h, hs]
      rw [List.cons_append, e1, e2, ih]
      rfl
    · have e1 : splitByte sep (c :: (cs ++ y)) =
          (c :: (splitByte sep (cs ++ y)).headD []) :: (splitByte sep (cs ++ y)).tail := by
        simp [splitByte, h]
      have e2 : splitByte sep (c :: cs) = (c :: l) :: ls := by simp [splitByte, h, hs]
      rw [List.cons_append, e1, e2, ih]
      cases ls with
      | nil => rfl
      | cons l2 ls2 => rfl

theorem splitByte_append_sep (sep : Byte) (a b : Bytes) :
    splitByte sep (a ++ sep :: b) = splitByte sep a ++ splitByte sep b := by
  rw [splitByte_append]
  have hne := splitByte_ne_nil sep a
  simp only [splitByte, if_true, List.headD_cons, List.tail_cons, List.append_nil]
  rw [← List.dropLast_append_getLast hne, List.dropLast_concat, List.getLastD_concat,
    List.append_assoc, List.singleton_append]

/-- A line of `x ++ m ++ y`, where `m` has no separator, is a piece of `x`, a
piece of `y`, or contains all of `m`. -/
theorem mem_splitByte_marker {sep : Byte} {t x m y : Bytes} (hm : sep ∉ m)
    (h : t ∈ splitByte sep (x ++ m ++ y)) :
    t ∈ splitByte sep x ∨ t ∈ splitByte sep y ∨ ∀ c ∈ m, c ∈ t := by
  rw [List.append_assoc, splitByte_append sep x, splitByte_append sep m,
    splitByte_of_not_mem sep m hm] at h
  simp only [List.dropLast_single, List.getLastD_cons, List.getLastD_nil, List.nil_append,
    List.headD_cons, List.tail_cons, List.mem_append, List.mem_cons] at h
  rcases h with h | h | h
  · exact Or.inl (List.dropLast_subset _ h)
  · refine Or.inr (Or.inr ?_)
    intro c hc
    rw [h]
    simp [hc]
  · exact Or.inr (Or.inl (List.mem_of_mem_tail h))

/-! ## The shape of a built message -/

theorem attachmentStep_eq (B : Bytes) (len i : Nat) (item : Attachment) (buffer : Bytes) :
    attachmentStep B len i item buffer =
      buffer ++ attachmentPart item ++
        (if i + 1 = len then [] else dashBoundary B ++ [LF]) := by
  have e1 : str "Content-Type: application/octet-stream; charset=UTF-8;\n \tname=\"=?UTF-8?B?" =
      str "Content-Type: application/octet-stream; charset=UTF-8;\n" ++
        str " \tname=\"=?UTF-8?B?" := by decide
  have e2 : str "?=\"\n\n" = str "?=\"\n" ++ str "\n" := by decide
  have e3 : str "\n" = [LF] := by decide
  have hI : ((i : Int) = (len : Int) - 1) ↔ (i + 1 = len) := by omega
  simp only [attachmentStep, attachmentPart, base64Wrap_eq, e1, e2, dashBoundary, ne_eq, hI,
    ite_not]
  by_cases h : i + 1 = len <;>
    simp only [h, if_true, if_false, List.append_assoc, List.nil_append, List.append_nil, e3]

/-- The loop of `buildAttachments` appends the attachment parts in list order,
with a delimiter line after every part but the last. -/
theorem attachmentLoop_eq (B : Bytes) (len : Nat) : ∀ (rest : List Attachment) (i : Nat)
    (buffer : Bytes), i + rest.length = len →
    attachmentLoop B len i rest buffer =
      buffer ++ Join (rest.map attachmentPart) (dashBoundary B ++ [LF])
  | [], i, buffer, _ => by simp [attachmentLoop, Join]
  | [item], i, buffer, h => by
    have hi : i + 1 = len := by simpa using h
    simp [attachmentLoop, attachmentStep_eq, Join, hi]
  | item :: b :: rest, i, buffer, h => by
    have hi : ¬ (i + 1 = len) := by simp only [List.length_cons] at h; omega
    have h1 : i + 1 + (b :: rest).length = len := by simp only [List.length_cons] at h ⊢; omega
    rw [attachmentLoop, attachmentLoop_eq B len (b :: rest) (i + 1) _ h1, attachmentStep_eq]
    simp only [hi, if_false, List.map_cons, Join, List.append_assoc]

/-- The wire form that `build` produces: the header block, the text part, a
delimiter line, the attachment parts separated by delimiter lines, a blank
line and the closing delimiter line. -/
theorem build_body (B : Bytes) (l : Letter) :
    (l.build B).body =
      headerBlock B l ++ textPart l ++ dashBoundary B ++ [LF] ++
        Join (l.attachments.map attachmentPart) (dashBoundary B ++ [LF]) ++
        [LF] ++ closeDelimiter B ++ [LF] := by
  have e1 : str ">\nTo: " = str ">" ++ [LF] ++ str "To: " := by decide
  have e2 : str "\nCC: " = [LF] ++ str "CC: " := by decide
  have e3 : str "\nSubject: " = [LF] ++ str "Subject: " := by decide
  have e4 : str "\nMIME-Version: 1.0\n" = [LF] ++ str "MIME-Version: 1.0" ++ [LF] := by decide
  have e5 : str "\n\n" = [LF] ++ [LF] := by decide
  have e6 : str "\n" = [LF] := by decide
  have e7 : str "Content-Type: text/plain; charset=UTF-8\n" =
      str "Content-Type: text/plain; charset=UTF-8" ++ [LF] := by decide
  have e8 : str "Content-Transfer-Encoding: quoted-printable\n\n" =
      str "Content-Transfer-Encoding: quoted-printable" ++ [LF] ++ [LF] := by decide
  have e9 : str "\n\n--" = [LF] ++ [LF] ++ str "--" := by decide
  have e10 : str "\n--" = [LF] ++ str "--" := by decide
  have e11 : str "--\n" = str "--" ++ [LF] := by decide
  simp only [Letter.build, Letter.buildEnd, Letter.buildAttachments, Letter.buildContent,
    Letter.buildHeader, attachmentLoop_eq B _ l.attachments 0 _ (Nat.zero_add _),
    headerBlock, textPart, dashBoundary, closeDelimiter,
    e1, e2, e3, e4, e5, e6, e7, e8, e9, e10, e11, List.append_assoc, List.nil_append]

/-! ## Counting delimiter lines -/

theorem lines_count {t : Bytes} (ht : t ≠ []) (s : Bytes) :
    (lines s).count t = (splitByte LF s).count t := by
  unfold lines
  split
  · rename_i h
    obtain ⟨ini, hini⟩ : ∃ ini, splitByte LF s = ini ++ [[]] := by
      have hne := splitByte_ne_nil LF s
      refine ⟨(splitByte LF s).dropLast, ?_⟩
      have h2 := List.dropLast_append_getLast hne
      have h3 : (splitByte LF s).getLast hne = [] := by
        rw [List.getLast?_eq_getLast _ hne] at h
        exact Option.some.inj h
      rw [h3] at h2
      exact h2.symm
    rw [hini, List.dropLast_concat, List.count_append]
    have : List.count t [([] : Bytes)] = 0 :=
      List.count_eq_zero_of_not_mem (by simpa using ht)
    omega
  · rfl

theorem mem_lines {t s : Bytes} (h : t ∈ splitByte LF s) (ht : t ≠ []) : t ∈ lines s := by
  have h1 : 0 < (splitByte LF s).count t := List.count_pos_iff.mpr h
  rw [← lines_count ht] at h1
  exact List.count_pos_iff.mp h1

theorem NoLine.not_mem {t s : Bytes} (h : NoLine t s) (ht : t ≠ []) : t ∉ splitByte LF s :=
  fun hm => h (mem_lines hm ht)

theorem count_seg {t seg : Bytes} (h : t ∉ splitByte LF seg) (X : Bytes) :
    (splitByte LF (seg ++ LF :: X)).count t = (splitByte LF X).count t := by
  rw [splitByte_append_sep, List.count_append, List.count_eq_zero_of_not_mem h, Nat.zero_add]

theorem count_hit {t : Bytes} (h : LF ∉ t) (X : Bytes) :
    (splitByte LF (t ++ LF :: X)).count t = 1 + (splitByte LF X).count t := by
  rw [splitByte_append_sep, List.count_append, splitByte_of_not_mem LF t h]
  simp

theorem clean_nil {t : Bytes} (ht : t ≠ []) : t ∉ splitByte LF [] := by
  simpa [splitByte] using ht

/-- A text without line feed that holds a character foreign to `t` is not the
line `t`. -/
theorem clean_lit {t seg : Bytes} (htok : ∀ c ∈ t, IsTokenChar c) (c : Byte) (hc : c ∈ seg)
    (hnc : ¬ IsTokenChar c) (hlf : LF ∉ seg) : t ∉ splitByte LF seg := by
  rw [splitByte_of_not_mem LF seg hlf, List.mem_singleton]
  intro e
  exact hnc (htok c (e ▸ hc))

/-- Joining two texts that have no line `t` by a literal that holds a character
foreign to `t` gives a text that has no line `t`. -/
theorem clean_marker {t x m y : Bytes} (htok : ∀ c ∈ t, IsTokenChar c) (c : Byte) (hc : c ∈ m)
    (hnc : ¬ IsTokenChar c) (hlf : LF ∉ m) (hx : t ∉ splitByte LF x) (hy : t ∉ splitByte LF y) :
    t ∉ splitByte LF (x ++ m ++ y) := by
  intro h
  rcases mem_splitByte_marker hlf h with h1 | h1 | h1
  · exact hx h1
  · exact hy h1
  · exact hnc (htok c (h1 c hc))

theorem clean_lead {t m y : Bytes} (htok : ∀ c ∈ t, IsTokenChar c) (ht : t ≠ []) (c : Byte)
    (hc : c ∈ m) (hnc : ¬ IsTokenChar c) (hlf : LF ∉ m) (hy : t ∉ splitByte LF y) :
    t ∉ splitByte LF (m ++ y) := by
  have := clean_marker (x := []) htok c hc hnc hlf (clean_nil ht) hy
  simpa using this

theorem clean_join {t : Bytes} (htok : ∀ c ∈ t, IsTokenChar c) (ht : t ≠ []) :
    ∀ rs : List Bytes, (∀ r ∈ rs, t ∉ splitByte LF r) → t ∉ splitByte LF (Join rs (str ","))
  | [], _ => clean_nil ht
  | [a], h => h a (List.mem_singleton_self a)
  | a :: b :: rest, h => by
    have ih := clean_join htok ht (b :: rest) (fun r hr => h r (List.mem_cons_of_mem _ hr))
    exact clean_marker htok 44 (by decide) (by decide) (by decide)
      (h a (List.mem_cons_self _ _)) ih

theorem hextable_getD_mem : ∀ i : Fin 16, hextable.getD i.val 0 ∈ hextable := by decide

theorem hexEncodeToString_chars : ∀ (b : Bytes) (c : Byte), c ∈ hexEncodeToString b → c ∈ hextable
  | [], c, h => by simp [hexEncodeToString] at h
  | v :: rest, c, h => by
    simp only [hexEncodeToString, List.mem_cons] at h
    rcases h with rfl | rfl | h
    · exact hextable_getD_mem ⟨v.val / 16, by have := v.isLt; omega⟩
    · exact hextable_getD_mem ⟨v.val % 16, Nat.mod_lt _ (by decide)⟩
    · exact hexEncodeToString_chars rest c h

theorem hexEncodeToString_length : ∀ b : Bytes, (hexEncodeToString b).length = 2 * b.length
  | [] => rfl
  | v :: rest => by
    simp only [hexEncodeToString, List.length_cons, hexEncodeToString_length rest]
    omega

theorem generateBoundary_length (random : Bytes) : (generateBoundary random).length = 32 := by
  simp only [generateBoundary, hexEncodeToString_length, List.length_append, List.length_take,
    List.length_drop, List.length_replicate]
  omega

theorem dashBoundary_chars (random : Bytes) :
    ∀ c ∈ dashBoundary (generateBoundary random), IsTokenChar c := by
  intro c hc
  simp only [dashBoundary, List.mem_append] at hc
  rcases hc with hc | hc
  · have : c = 45 := by
      have e : str "--" = [45, 45] := by decide
      rw [e] at hc
      simpa using hc
    exact Or.inl this
  · exact Or.inr (hexEncodeToString_chars _ c hc)

theorem closeDelimiter_chars (random : Bytes) :
    ∀ c ∈ closeDelimiter (generateBoundary random), IsTokenChar c := by
  intro c hc
  have e : str "--" = [45, 45] := by decide
  simp only [closeDelimiter, List.mem_append, e] at hc
  rcases hc with (hc | hc) | hc
  · exact Or.inl (by simpa using hc)
  · exact Or.inr (hexEncodeToString_chars _ c hc)
  · exact Or.inl (by simpa using hc)

theorem tokenChar_ne_lf {t : Bytes} (htok : ∀ c ∈ t, IsTokenChar c) : LF ∉ t :=
  fun h => absurd (htok LF h) (by decide)

theorem count_joinCRLF {t : Bytes} (htok : ∀ c ∈ t, IsTokenChar c) :
    ∀ (ls : List Bytes) (X : Bytes), (∀ l ∈ ls, ∀ c ∈ l, IsB64 c) →
      (splitByte LF (joinCRLF ls ++ X)).count t = (splitByte LF X).count t
  | [], X, _ => by simp [joinCRLF]
  | l :: ls, X, h => by
    have ih := count_joinCRLF htok ls X (fun l' hl' => h l' (List.mem_cons_of_mem _ hl'))
    have e : joinCRLF (l :: ls) ++ X = (l ++ [CR]) ++ LF :: (joinCRLF ls ++ X) := by
      simp only [joinCRLF, crlf, List.map_cons, List.flatten_cons, List.append_assoc,
        List.cons_append, List.nil_append]
    have hlf : LF ∉ l ++ [CR] := by
      intro hm
      rcases List.mem_append.mp hm with hm | hm
      · exact (h l (List.mem_cons_self _ _) LF hm).ne_lf rfl
      · exact absurd hm (by decide)
    rw [e, count_seg (clean_lit htok CR (by simp) (by decide) hlf), ih]

theorem stdEncode_no_lf (b : Bytes) : LF ∉ stdEncode b :=
  fun h => (stdEncode_isB64 b LF h).ne_lf rfl

/-- No line of an attachment part is a delimiter line. -/
theorem count_attachmentPart {t : Bytes} (htok : ∀ c ∈ t, IsTokenChar c) (ht : t ≠ [])
    (item : Attachment) (X : Bytes) :
    (splitByte LF (attachmentPart item ++ X)).count t = (splitByte LF X).count t := by
  have e1 : str "Content-Type: application/octet-stream; charset=UTF-8;\n" =
      str "Content-Type: application/octet-stream; charset=UTF-8;" ++ [LF] := by decide
  have e2 : str "?=\"\n" = str "?=\"" ++ [LF] := by decide
  have e3 : str "Content-Transfer-Encoding: base64\n" =
      str "Content-Transfer-Encoding: base64" ++ [LF] := by decide
  have e4 : str "\n" = [LF] := by decide
  have e : attachmentPart item ++ X =
      str "Content-Type: application/octet-stream; charset=UTF-8;" ++ LF ::
        ((str " \tname=\"=?UTF-8?B?" ++ stdEncode item.Filename ++ str "?=\"") ++ LF ::
          (str "Content-Transfer-Encoding: base64" ++ LF ::
            ((str "Content-Disposition: attachment; filename=\"=?UTF-8?B?" ++
                stdEncode item.Filename ++ str "?=\"") ++ LF ::
              ([] ++ LF :: (joinCRLF (wrapLines item.Data) ++ X))))) := by
    simp only [attachmentPart, EncodeToString, base64Wrap_eq, e1, e2, e3, e4, List.append_assoc,
      List.cons_append, List.nil_append]
  have hn := stdEncode_no_lf item.Filename
  have h2 : LF ∉ str " \tname=\"=?UTF-8?B?" ++ stdEncode item.Filename ++ str "?=\"" := by
    intro hm
    simp only [List.mem_append] at hm
    rcases hm with (hm | hm) | hm
    · exact absurd hm (by decide)
    · exact hn hm
    · exact absurd hm (by decide)
  have h4 : LF ∉ str "Content-Disposition: attachment; filename=\"=?UTF-8?B?" ++
      stdEncode item.Filename ++ str "?=\"" := by
    intro hm
    simp only [List.mem_append] at hm
    rcases hm with (hm | hm) | hm
    · exact absurd hm (by decide)
    · exact hn hm
    · exact absurd hm (by decide)
  rw [e, count_seg (clean_lit htok 58 (by decide) (by decide) (by decide)),
    count_seg (clean_lit htok 34 (List.mem_append_left _ (List.mem_append_left _ (by decide)))
      (by decide) h2),
    count_seg (clean_lit htok 58 (by decide) (by decide) (by decide)),
    count_seg (clean_lit htok 58 (List.mem_append_left _ (List.mem_append_left _ (by decide)))
      (by decide) h4),
    count_seg (clean_nil ht),
    count_joinCRLF htok _ _ (fun l hl => wrapLines_isB64 hl)]

/-- The attachment section holds one delimiter line between consecutive parts
and none elsewhere; `k` is what one delimiter line contributes to the count. -/
theorem count_join_parts {t d : Bytes} (htok : ∀ c ∈ t, IsTokenChar c) (ht : t ≠ []) (k : Nat)
    (hd : ∀ X, (splitByte LF (d ++ LF :: X)).count t = k + (splitByte LF X).count t) :
    ∀ (items : List Attachment) (X : Bytes),
      (splitByte LF (Join (items.map attachmentPart) (d ++ [LF]) ++ X)).count t =
        k * (items.length - 1) + (splitByte LF X).count t
  | [], X => by simp [Join]
  | [a], X => by simp [Join, count_attachmentPart htok ht]
  | a :: b :: rest, X => by
    have ih := count_join_parts htok ht k hd (b :: rest) X
    have e : Join ((a :: b :: rest).map attachmentPart) (d ++ [LF]) ++ X =
        attachmentPart a ++ (d ++ LF :: (Join ((b :: rest).map attachmentPart) (d ++ [LF]) ++ X)) := by
      simp only [List.map_cons, Join, List.append_assoc, List.cons_append, List.nil_append]
    rw [e, count_attachmentPart htok ht, hd, ih]
    simp only [List.length_cons, Nat.add_sub_cancel]
    rw [Nat.mul_succ]
    omega

/-- No line of the header before the opening delimiter is a delimiter line. -/
theorem count_header {t B : Bytes} (htok : ∀ c ∈ t, IsTokenChar c) (ht : t ≠ []) (hB : LF ∉ B)
    (l : Letter) (hname : t ∉ splitByte LF l.name) (haddr : t ∉ splitByte LF l.address)
    (hto : ∀ r ∈ l.receivers, t ∉ splitByte LF r)
    (hcc : ∀ r ∈ l.carbonCopy, t ∉ splitByte LF r)
    (hsubj : t ∉ splitByte LF l.Subject) (X : Bytes) :
    (splitByte LF (headerBlock B l ++ X)).count t =
      (splitByte LF (dashBoundary B ++ LF :: X)).count t := by
  have e : headerBlock B l ++ X =
      (str "From: " ++ l.name ++ str "<" ++ l.address ++ str ">") ++ LF ::
        ((str "To: " ++ Join l.receivers (str ",")) ++ LF ::
          ((str "CC: " ++ Join l.carbonCopy (str ",")) ++ LF ::
            ((str "Subject: " ++ l.Subject) ++ LF ::
              (str "MIME-Version: 1.0" ++ LF ::
                ((str "Content-Type: multipart/mixed; boundary=" ++ B) ++ LF ::
                  ([] ++ LF :: (dashBoundary B ++ LF :: X))))))) := by
    simp only [headerBlock, List.append_assoc, List.cons_append, List.nil_append]
  have h1 : t ∉ splitByte LF (str "From: " ++ l.name ++ str "<" ++ l.address ++ str ">") := by
    have a1 := clean_lead htok ht 58 (m := str "From: ") (by decide) (by decide) (by decide) hname
    have a2 := clean_marker htok 60 (m := str "<") (by decide) (by decide) (by decide) a1 haddr
    have a3 := clean_marker htok 62 (m := str ">") (by decide) (by decide) (by decide) a2
      (clean_nil ht)
    simpa using a3
  have h6 : LF ∉ str "Content-Type: multipart/mixed; boundary=" ++ B := by
    intro hm
    rcases List.mem_append.mp hm with hm | hm
    · exact absurd hm (by decide)
    · exact hB hm
  rw [e, count_seg h1,
    count_seg (clean_lead htok ht 58 (by decide) (by decide) (by decide)
      (clean_join htok ht _ hto)),
    count_seg (clean_lead htok ht 58 (by decide) (by decide) (by decide)
      (clean_join htok ht _ hcc)),
    count_seg (clean_lead htok ht 58 (by decide) (by decide) (by decide) hsubj),
    count_seg (clean_lit htok 58 (by decide) (by decide) (by decide)),
    count_seg (clean_lit htok 58 (List.mem_append_left _ (by decide)) (by decide) h6),
    count_seg (clean_nil ht)]

/-- No line of the text part is a delimiter line when no line of the body text is. -/
theorem count_textPart {t : Bytes} (htok : ∀ c ∈ t, IsTokenChar c) (ht : t ≠ [])
    (l : Letter) (hcontent : t ∉ splitByte LF l.content) (X : Bytes) :
    (splitByte LF (textPart l ++ X)).count t = (splitByte LF X).count t := by
  have e : textPart l ++ X =
      str "Content-Type: text/plain; charset=UTF-8" ++ LF ::
        (str "Content-Transfer-Encoding: quoted-printable" ++ LF ::
          ([] ++ LF :: (l.content ++ LF :: ([] ++ LF :: X)))) := by
    simp only [textPart, List.append_assoc, List.cons_append, List.nil_append]
  rw [e, count_seg (clean_lit htok 58 (by decide) (by decide) (by decide)),
    count_seg (clean_lit htok 58 (by decide) (by decide) (by decide)),
    count_seg (clean_nil ht), count_seg hcontent, count_seg (clean_nil ht)]

theorem dash_ne_close (B : Bytes) : closeDelimiter B ≠ dashBoundary B := by
  intro h
  have := congrArg List.length h
  simp [closeDelimiter, dashBoundary] at this
  exact absurd this (by decide)

theorem build_body_nested (B : Bytes) (l : Letter) :
    (l.build B).body =
      headerBlock B l ++ (textPart l ++ (dashBoundary B ++ LF ::
        (Join (l.attachments.map attachmentPart) (dashBoundary B ++ [LF]) ++
          ([] ++ LF :: (closeDelimiter B ++ LF :: []))))) := by
  rw [build_body]
  simp only [List.append_assoc, List.cons_append, List.nil_append]

theorem build_count_dash (random : Bytes) (l : Letter)
    (h : FieldsClean (dashBoundary (generateBoundary random)) l) :
    (splitByte LF (l.build (generateBoundary random)).body).count
        (dashBoundary (generateBoundary random)) = 2 + (l.attachments.length - 1) := by
  have htok := dashBoundary_chars random
  have ht : dashBoundary (generateBoundary random) ≠ [] := by simp [dashBoundary, str]
  have hlf := tokenChar_ne_lf htok
  have hB : LF ∉ generateBoundary random :=
    fun hm => hlf (List.mem_append_right _ hm)
  obtain ⟨h1, h2, h3, h4, h5, h6⟩ := h
  have hclose : dashBoundary (generateBoundary random) ∉
      splitByte LF (closeDelimiter (generateBoundary random)) := by
    rw [splitByte_of_not_mem LF _ (tokenChar_ne_lf (closeDelimiter_chars random)),
      List.mem_singleton]
    exact fun e => dash_ne_close _ e.symm
  rw [build_body_nested,
    count_header htok ht hB l (h1.not_mem ht) (h2.not_mem ht) (fun r hr => (h3 r hr).not_mem ht)
      (fun r hr => (h4 r hr).not_mem ht) (h5.not_mem ht),
    count_hit hlf, count_textPart htok ht l (h6.not_mem ht), count_hit hlf,
    count_join_parts htok ht 1 (fun X => count_hit hlf X), count_seg (clean_nil ht),
    count_seg hclose, List.count_eq_zero_of_not_mem (clean_nil ht)]
  omega

theorem build_count_close (random : Bytes) (l : Letter)
    (h : FieldsClean (closeDelimiter (generateBoundary random)) l) :
    (splitByte LF (l.build (generateBoundary random)).body).count
        (closeDelimiter (generateBoundary random)) = 1 := by
  have htok := closeDelimiter_chars random
  have ht : closeDelimiter (generateBoundary random) ≠ [] := by simp [closeDelimiter, str]
  have hlf := tokenChar_ne_lf htok
  have hB : LF ∉ generateBoundary random :=
    fun hm => hlf (List.mem_append_left _ (List.mem_append_right _ hm))
  obtain ⟨h1, h2, h3, h4, h5, h6⟩ := h
  have hdash : closeDelimiter (generateBoundary random) ∉
      splitByte LF (dashBoundary (generateBoundary random)) := by
    rw [splitByte_of_not_mem LF _ (tokenChar_ne_lf (dashBoundary_chars random)),
      List.mem_singleton]
    exact dash_ne_close _
  rw [build_body_nested,
    count_header htok ht hB l (h1.not_mem ht) (h2.not_mem ht) (fun r hr => (h3 r hr).not_mem ht)
      (fun r hr => (h4 r hr).not_mem ht) (h5.not_mem ht),
    count_seg hdash, count_textPart htok ht l (h6.not_mem ht), count_seg hdash,
    count_join_parts htok ht 0 (fun X => by rw [count_seg hdash, Nat.zero_add]),
    count_seg (clean_nil ht), count_hit hlf, List.count_eq_zero_of_not_mem (clean_nil ht)]
  omega

/-- A text that ends with a line feed, the line `t` and a line feed has `t` as
its last line. -/
theorem lines_getLast {t : Bytes} (hlf : LF ∉ t) (Y : Bytes) :
    (lines (Y ++ LF :: (t ++ LF :: []))).getLast? = some t := by
  have e : splitByte LF (Y ++ LF :: (t ++ LF :: [])) = (splitByte LF Y ++ [t]) ++ [[]] := by
    rw [splitByte_append_sep, splitByte_append_sep, splitByte_of_not_mem LF t hlf]
    simp [splitByte]
  unfold lines
  rw [e, List.getLast?_concat, if_pos rfl, List.dropLast_concat, List.getLast?_concat]

theorem build_body_end (B : Bytes) (l : Letter) :
    ∃ Y, (l.build B).body = Y ++ LF :: (closeDelimiter B ++ LF :: []) :=
  ⟨headerBlock B l ++ textPart l ++ dashBoundary B ++ [LF] ++
      Join (l.attachments.map attachmentPart) (dashBoundary B ++ [LF]), by
    rw [build_body]
    simp only [List.append_assoc, List.cons_append, List.nil_append]⟩

/-- C3 (as the code has it): for every letter with `n ≥ 0` attachments whose
sender name, addresses, subject and body text contain no line equal to `--B` or
`--B--`, with `B` the token of `generateBoundary`, the output of `build` has
exactly `2 + (n - 1)` lines equal to `--B` (the opening delimiter, the one that
closes the text part, and one between consecutive attachments; for `n ≥ 1` that
is `n + 1`, the number of MIME parts), exactly one line equal to `--B--`, and
that line is its last line. -/
theorem build_delimiter_lines (random : Bytes) (l : Letter)
    (h1 : FieldsClean (dashBoundary (generateBoundary random)) l)
    (h2 : FieldsClean (closeDelimiter (generateBoundary random)) l) :
    (lines (l.build (generateBoundary random)).body).count
        (dashBoundary (generateBoundary random)) = 2 + (l.attachments.length - 1) ∧
      (lines (l.build (generateBoundary random)).body).count
        (closeDelimiter (generateBoundary random)) = 1 ∧
      (lines (l.build (generateBoundary random)).body).getLast? =
        some (closeDelimiter (generateBoundary random)) := by
  have ht : dashBoundary (generateBoundary random) ≠ [] := by simp [dashBoundary, str]
  have ht2 : closeDelimiter (generateBoundary random) ≠ [] := by simp [closeDelimiter, str]
  refine ⟨?_, ?_, ?_⟩
  · rw [lines_count ht, build_count_dash random l h1]
  · rw [lines_count ht2, build_count_close random l h2]
  · obtain ⟨Y, hY⟩ := build_body_end (generateBoundary random) l
    rw [hY]
    exact lines_getLast (tokenChar_ne_lf (closeDelimiter_chars random)) Y

/-- The sample letter with one attachment satisfies the hypotheses of
`build_delimiter_lines`. -/
theorem build_delimiter_lines_witness :
    FieldsClean (dashBoundary sampleBoundary) sampleLetter ∧
      FieldsClean (closeDelimiter sampleBoundary) sampleLetter ∧
      (lines (sampleLetter.build sampleBoundary).body).count (dashBoundary sampleBoundary) =
        2 + (sampleLetter.attachments.length - 1) ∧
      (lines (sampleLetter.build sampleBoundary).body).count (closeDelimiter sampleBoundary) = 1 ∧
      (lines (sampleLetter.build sampleBoundary).body).getLast? =
        some (closeDelimiter sampleBoundary) :=
  ⟨by decide, by decide,
    build_delimiter_lines (List.replicate 16 0) sampleLetter (by decide) (by decide)⟩

/-- C3 as stated fails: a letter with one attachment has two MIME parts, its
fields hold no delimiter line, and its built form has two lines equal to `--B`,
not one. -/
theorem build_delimiter_count_counterexample :
    FieldsClean (dashBoundary sampleBoundary) sampleLetter ∧
      FieldsClean (closeDelimiter sampleBoundary) sampleLetter ∧
      (lines (sampleLetter.build sampleBoundary).body).count (dashBoundary sampleBoundary) ≠
        (1 + sampleLetter.attachments.length) - 1 := by
  decide

/-- C5 (as the code has it): `buildAttachments` appends to the body, for the
attachments in list order, the part text of each: the `Content-Type` header
folded onto two lines (`Content-Type: application/octet-stream; charset=UTF-8;`
and, after a space and a tab, `name="=?UTF-8?B?<base64(f)>?="`), the line
`Content-Transfer-Encoding: base64`, the line
`Content-Disposition: attachment; filename="=?UTF-8?B?<base64(f)>?="`, one blank
line, and exactly the `base64Wrap` output for the data; every part except the
last is followed directly by a `--B` delimiter line; and the built message
holds that section between the text part's delimiter and the closing one. -/
theorem buildAttachments_parts (B : Bytes) (l : Letter) :
    (l.buildAttachments B).body =
        l.body ++ Join (l.attachments.map attachmentPart) (dashBoundary B ++ [LF]) ∧
      (∃ pre, (l.build B).body =
        pre ++ dashBoundary B ++ [LF] ++
          Join (l.attachments.map attachmentPart) (dashBoundary B ++ [LF]) ++
          [LF] ++ closeDelimiter B ++ [LF]) ∧
      ∀ item : Attachment, attachmentPart item =
        str "Content-Type: application/octet-stream; charset=UTF-8;" ++ [LF] ++
          str " \tname=\"=?UTF-8?B?" ++ stdEncode item.Filename ++ str "?=\"" ++ [LF] ++
          str "Content-Transfer-Encoding: base64" ++ [LF] ++
          str "Content-Disposition: attachment; filename=\"=?UTF-8?B?" ++
          stdEncode item.Filename ++ str "?=\"" ++ [LF] ++
          [LF] ++
          base64Wrap [] item.Data := by
  refine ⟨?_, ⟨headerBlock B l ++ textPart l, ?_⟩, ?_⟩
  · simp only [Letter.buildAttachments]
    exact attachmentLoop_eq B _ l.attachments 0 l.body (Nat.zero_add _)
  · rw [build_body]
  · intro item
    have e1 : str "Content-Type: application/octet-stream; charset=UTF-8;\n" =
        str "Content-Type: application/octet-stream; charset=UTF-8;" ++ [LF] := by decide
    have e2 : str "?=\"\n" = str "?=\"" ++ [LF] := by decide
    have e3 : str "Content-Transfer-Encoding: base64\n" =
        str "Content-Transfer-Encoding: base64" ++ [LF] := by decide
    have e4 : str "\n" = [LF] := by decide
    simp only [attachmentPart, EncodeToString, e1, e2, e3, e4, List.append_assoc]

/-- C5 as stated fails: the built form of a letter with the attachment `a.txt`
nowhere contains the unfolded line
`Content-Type: application/octet-stream; charset=UTF-8; name="=?UTF-8?B?YS50eHQ=?="`. -/
theorem unfolded_content_type_counterexample :
    ¬ (unfoldedContentType (str "a.txt") <:+: (sampleLetter.build sampleBoundary).body) := by
  decide

/-- C6: for every letter, the output of `build` begins with the header lines in
the fixed order `From`, `To` (recipients joined by `,`), `CC` (carbon-copy
addresses joined by `,`), `Subject`, `MIME-Version: 1.0`,
`Content-Type: multipart/mixed; boundary=B`, then one blank line and the opening
line `--B`; and the rest of the output is the text part, the attachment parts
and the delimiter lines, where every `--B` and `--B--` line that `build` emits
carries the same token `B` as that `Content-Type` header. -/
theorem build_header_block (B : Bytes) (l : Letter) :
    headerBlock B l <+: (l.build B).body ∧
      (l.build B).body =
        str "From: " ++ l.name ++ str "<" ++ l.address ++ str ">" ++ [LF] ++
          str "To: " ++ Join l.receivers (str ",") ++ [LF] ++
          str "CC: " ++ Join l.carbonCopy (str ",") ++ [LF] ++
          str "Subject: " ++ l.Subject ++ [LF] ++
          str "MIME-Version: 1.0" ++ [LF] ++
          str "Content-Type: multipart/mixed; boundary=" ++ B ++ [LF] ++
          [LF] ++
          (str "--" ++ B) ++ [LF] ++
          textPart l ++
          (str "--" ++ B) ++ [LF] ++
          Join (l.attachments.map attachmentPart) ((str "--" ++ B) ++ [LF]) ++
          [LF] ++ (str "--" ++ B ++ str "--") ++ [LF] := by
  constructor
  · rw [build_body]
    simp only [List.append_assoc]
    exact List.prefix_append _ _
  · rw [build_body]
    simp only [headerBlock, dashBoundary, closeDelimiter, List.append_assoc]

/-- C7: for every letter and a fixed boundary token, a second `build` leaves the
letter exactly as the first `build` left it (the wire form is overwritten, not
appended to), and `build` changes no field other than the derived byte
sequence. -/
theorem build_idempotent (B : Bytes) (l : Letter) :
    (l.build B).build B = l.build B ∧
      ((l.build B).build B).body = (l.build B).body ∧
      { l.build B with body := l.body } = l := by
  obtain ⟨address, name, subject, content, receivers, carbonCopy, attachments, body⟩ := l
  simp only [Letter.build, Letter.buildHeader, Letter.buildContent, Letter.buildAttachments,
    Letter.buildEnd, and_self]

/-! ## The session driver -/

theorem issueAll_append {ε : Type} (srv : Server ε) : ∀ (p q : List Call) (s : Session),
    issueAll srv (p ++ q) s =
      match issueAll srv p s with
      | (s1, some e) => (s1, some e)
      | (s1, none) => issueAll srv q s1
  | [], q, s => rfl
  | c :: p, q, s => by
    have e1 : issueAll srv (c :: (p ++ q)) s =
        match s.issue srv c with
        | (s1, some e) => (s1, some e)
        | (s1, none) => issueAll srv (p ++ q) s1 := rfl
    have e2 : issueAll srv (c :: p) s =
        match s.issue srv c with
        | (s1, some e) => (s1, some e)
        | (s1, none) => issueAll srv p s1 := rfl
    rw [List.cons_append, e1, e2]
    rcases s.issue srv c with ⟨s1, _ | e⟩
    · exact issueAll_append srv p q s1
    · rfl

theorem rcptLoop_eq {ε : Type} (srv : Server ε) : ∀ (l : List Bytes) (s : Session),
    rcptLoop srv l s = issueAll srv (l.map Call.rcpt) s
  | [], s => rfl
  | a :: l, s => by
    simp only [rcptLoop, List.map_cons, issueAll]
    rcases h : s.issue srv (Call.rcpt a) with ⟨s1, _ | e⟩
    · simp only [rcptLoop_eq srv l s1]
    · rfl

/-- The commands from `MAIL` on, as `sendMailUsingTLS` issues them. -/
theorem issueAll_transaction {ε : Type} (srv : Server ε) (sender : Bytes)
    (toAddrs cc : List Bytes) (msg : Bytes) (s1 : Session) :
    issueAll srv ([Call.mail sender] ++ (toAddrs.map Call.rcpt ++ (cc.map Call.rcpt ++
        [Call.data, Call.write msg, Call.closeData, Call.quit]))) s1 =
      match s1.issue srv (Call.mail sender) with
      | (s2, some e) => (s2, some e)
      | (s2, none) =>
        match rcptLoop srv toAddrs s2 with
        | (s3, some e) => (s3, some e)
        | (s3, none) =>
          match rcptLoop srv cc s3 with
          | (s4, some e) => (s4, some e)
          | (s4, none) =>
            match s4.issue srv Call.data with
            | (s5, some e) => (s5, some e)
            | (s5, none) =>
              match s5.issue srv (Call.write msg) with
              | (s6, some e) => (s6, some e)
              | (s6, none) =>
                match s6.issue srv Call.closeData with
                | (s7, some e) => (s7, some e)
                | (s7, none) => s7.issue srv Call.quit := by
  have hcons : ∀ (c : Call) (X : List Call) (s : Session), issueAll srv (c :: X) s =
      match s.issue srv c with
      | (s1, some e) => (s1, some e)
      | (s1, none) => issueAll srv X s1 := fun _ _ _ => rfl
  rw [List.singleton_append, hcons]
  rcases s1.issue srv (Call.mail sender) with ⟨s2, _ | e⟩
  swap
  · rfl
  simp only []
  rw [issueAll_append, rcptLoop_eq]
  rcases issueAll srv (toAddrs.map Call.rcpt) s2 with ⟨s3, _ | e⟩
  swap
  · rfl
  simp only []
  rw [issueAll_append, rcptLoop_eq]
  rcases issueAll srv (cc.map Call.rcpt) s3 with ⟨s4, _ | e⟩
  swap
  · rfl
  simp only []
  rw [hcons]
  rcases s4.issue srv Call.data with ⟨s5, _ | e⟩
  swap
  · rfl
  simp only []
  rw [hcons]
  rcases s5.issue srv (Call.write msg) with ⟨s6, _ | e⟩
  swap
  · rfl
  simp only []
  rw [hcons]
  rcases s6.issue srv Call.closeData with ⟨s7, _ | e⟩
  swap
  · rfl
  simp only []
  rw [hcons]
  rcases s7.issue srv Call.quit with ⟨s8, _ | e⟩ <;> rfl

theorem sendCommands_eq {ε : Type} (srv : Server ε) (auth : Option PlainAuth) (sender : Bytes)
    (toAddrs cc : List Bytes) (msg : Bytes) (s : Session) :
    sendCommands srv auth sender toAddrs cc msg s =
      issueAll srv (transactionPlan srv.authOffered auth sender toAddrs cc msg) s := by
  have hnone : sendCommands srv none sender toAddrs cc msg s =
      issueAll srv ([Call.mail sender] ++ (toAddrs.map Call.rcpt ++ (cc.map Call.rcpt ++
        [Call.data, Call.write msg, Call.closeData, Call.quit]))) s := by
    rw [issueAll_transaction]
    rfl
  cases auth with
  | none =>
    rw [hnone]
    simp only [transactionPlan, List.nil_append, List.append_assoc]
  | some a =>
    by_cases hb : srv.authOffered = true
    · have e : transactionPlan srv.authOffered (some a) sender toAddrs cc msg =
          [Call.auth a] ++ ([Call.mail sender] ++ (toAddrs.map Call.rcpt ++ (cc.map Call.rcpt ++
            [Call.data, Call.write msg, Call.closeData, Call.quit]))) := by
        simp only [transactionPlan, hb, if_true, List.append_assoc]
      have hc : issueAll srv [Call.auth a] s =
          match s.issue srv (Call.auth a) with
          | (s1, some e) => (s1, some e)
          | (s1, none) => (s1, none) := rfl
      rw [e, issueAll_append, hc]
      simp only [sendCommands, hb, if_true]
      rcases s.issue srv (Call.auth a) with ⟨s1, _ | e⟩
      · simp only []
        rw [issueAll_transaction]
      · rfl
    · have e : transactionPlan srv.authOffered (some a) sender toAddrs cc msg =
          [Call.mail sender] ++ (toAddrs.map Call.rcpt ++ (cc.map Call.rcpt ++
            [Call.data, Call.write msg, Call.closeData, Call.quit])) := by
        simp only [transactionPlan, hb, if_false, List.nil_append, List.append_assoc]
        rfl
      rw [e, issueAll_transaction]
      simp only [sendCommands, hb, if_false]
      rfl

theorem issue_trace {ε : Type} (srv : Server ε) (c : Call) (s : Session) :
    (s.issue srv c).1.trace = s.trace ++ [c] ∧ (s.issue srv c).2 = srv.reply s.trace c :=
  ⟨rfl, rfl⟩

/-- Issuing a list of calls is running it as a plan against the server. -/
theorem issueAll_runPlan {ε : Type} (srv : Server ε) : ∀ (p : List Call) (s : Session),
    (issueAll srv p s).1.trace = (runPlan srv.reply p s.trace).1 ∧
      (issueAll srv p s).2 = (runPlan srv.reply p s.trace).2
  | [], s => ⟨rfl, rfl⟩
  | c :: p, s => by
    have e1 : issueAll srv (c :: p) s =
        match s.issue srv c with
        | (s1, some e) => (s1, some e)
        | (s1, none) => issueAll srv p s1 := rfl
    have e2 : runPlan srv.reply (c :: p) s.trace =
        match srv.reply s.trace c with
        | some e => (s.trace ++ [c], some e)
        | none => runPlan srv.reply p (s.trace ++ [c]) := rfl
    have ht := issue_trace srv c s
    rw [e1, e2]
    rcases h : s.issue srv c with ⟨s1, _ | e⟩
    · rw [h] at ht
      simp only [] at ht ⊢
      rw [← ht.2, ← ht.1]
      exact issueAll_runPlan srv p s1
    · rw [h] at ht
      simp only [] at ht ⊢
      rw [← ht.2, ← ht.1]
      exact ⟨rfl, rfl⟩

theorem callCloses_le {ε : Type} (srv : Server ε) (hist : List Call) (c : Call) :
    callCloses srv hist c ≤ 1 := by
  unfold callCloses
  split
  · exact Nat.le_refl 1
  · exact Nat.le_refl 1
  · split <;> decide
  · split <;> decide
  · exact Nat.zero_le 1

theorem callCloses_close {ε : Type} (srv : Server ε) (hist : List Call) :
    callCloses srv hist Call.close = 1 := by
  unfold callCloses
  split <;> simp_all

/-- A call that succeeds and is neither `Close` nor `Quit` closes nothing. -/
theorem callCloses_ok {ε : Type} (srv : Server ε) (hist : List Call) (c : Call)
    (hr : srv.reply hist c = none) (h1 : c ≠ Call.close) (h2 : c ≠ Call.quit) :
    callCloses srv hist c = 0 := by
  unfold callCloses
  rw [hr]
  cases c <;> first | exact absurd rfl h1 | exact absurd rfl h2 | rfl

/-- A call other than `Close`, `Quit` and `Auth` closes nothing. -/
theorem callCloses_plain {ε : Type} (srv : Server ε) (hist : List Call) (c : Call)
    (h1 : c ≠ Call.close) (h2 : c ≠ Call.quit) (h3 : ∀ a, c ≠ Call.auth a) :
    callCloses srv hist c = 0 := by
  unfold callCloses
  cases c with
  | auth a => exact absurd rfl (h3 a)
  | close => exact absurd rfl h1
  | quit => exact absurd rfl h2
  | mail x => rfl
  | rcpt x => rfl
  | data => rfl
  | write x => rfl
  | closeData => rfl

theorem callCloses_quit_ok {ε : Type} (srv : Server ε) (hist : List Call)
    (hr : srv.reply hist Call.quit = none) : callCloses srv hist Call.quit = 1 := by
  unfold callCloses
  rw [hr]

/-- A failing `Quit` or `Auth` closes the connection when the library did. -/
theorem callCloses_failed {ε : Type} (srv : Server ε) (hist : List Call) (c : Call)
    (hr : srv.reply hist c ≠ none) (hc : c = Call.quit ∨ ∃ a, c = Call.auth a) :
    callCloses srv hist c = if srv.closedInCall hist c then 1 else 0 := by
  obtain ⟨e, he⟩ := Option.ne_none_iff_exists'.mp hr
  unfold callCloses
  rw [he]
  rcases hc with rfl | ⟨a, rfl⟩ <;> rfl

theorem issue_eq {ε : Type} (srv : Server ε) (c : Call) (s : Session) :
    s.issue srv c =
      ({ trace := s.trace ++ [c], connCloses := s.connCloses + callCloses srv s.trace c },
        srv.reply s.trace c) := rfl

/-- Calls without `Close` and `Quit`: when all succeed nothing is closed; when
one fails, it is the last call issued and only it can have closed anything. -/
theorem issueAll_quiet {ε : Type} (srv : Server ε) : ∀ (p : List Call) (s : Session),
    (∀ c ∈ p, c ≠ Call.close ∧ c ≠ Call.quit) →
    ((issueAll srv p s).2 = none → (issueAll srv p s).1.connCloses = s.connCloses) ∧
      ((issueAll srv p s).2 ≠ none →
        ∃ hist c, (issueAll srv p s).1.trace = hist ++ [c] ∧
          (issueAll srv p s).1.connCloses = s.connCloses + callCloses srv hist c ∧
          srv.reply hist c = (issueAll srv p s).2 ∧ c ≠ Call.close ∧ c ≠ Call.quit)
  | [], s, _ => ⟨fun _ => rfl, fun h => absurd rfl h⟩
  | c :: p, s, h => by
    have e1 : issueAll srv (c :: p) s =
        match s.issue srv c with
        | (s1, some e) => (s1, some e)
        | (s1, none) => issueAll srv p s1 := rfl
    have hc := h c (List.mem_cons_self _ _)
    rw [e1, issue_eq]
    rcases hr : srv.reply s.trace c with _ | e
    · simp only []
      have ih := issueAll_quiet srv p
        { trace := s.trace ++ [c], connCloses := s.connCloses + callCloses srv s.trace c }
        (fun c' hc' => h c' (List.mem_cons_of_mem _ hc'))
      rw [callCloses_ok srv s.trace c hr hc.1 hc.2, Nat.add_zero] at ih ⊢
      exact ih
    · simp only []
      refine ⟨fun h0 => by simp at h0, fun _ => ⟨s.trace, c, rfl, rfl, hr, hc.1, hc.2⟩⟩

/-- A plan that ends in `QUIT` and has no other `QUIT` or `Close`: the last call
issued decides the result, it alone can have closed the connection, and it is
`QUIT` when the plan succeeds. -/
theorem issueAll_quit_last {ε : Type} (srv : Server ε) (p : List Call) (s : Session)
    (h : ∀ c ∈ p, c ≠ Call.close ∧ c ≠ Call.quit) :
    ∃ hist c, (issueAll srv (p ++ [Call.quit]) s).1.trace = hist ++ [c] ∧
      (issueAll srv (p ++ [Call.quit]) s).1.connCloses = s.connCloses + callCloses srv hist c ∧
      srv.reply hist c = (issueAll srv (p ++ [Call.quit]) s).2 ∧ c ≠ Call.close ∧
      ((issueAll srv (p ++ [Call.quit]) s).2 = none → c = Call.quit) := by
  have hp := issueAll_quiet srv p s h
  rw [issueAll_append]
  rcases hi : issueAll srv p s with ⟨s1, _ | e⟩
  · rw [hi] at hp
    have hcl : s1.connCloses = s.connCloses := hp.1 rfl
    have hq : issueAll srv [Call.quit] s1 =
        match s1.issue srv Call.quit with
        | (s2, some e) => (s2, some e)
        | (s2, none) => (s2, none) := rfl
    simp only []
    rw [hq, issue_eq]
    rcases hr : srv.reply s1.trace Call.quit with _ | e
    · exact ⟨s1.trace, Call.quit, rfl, by simp only []; rw [hcl], hr, by simp, fun _ => rfl⟩
    · exact ⟨s1.trace, Call.quit, rfl, by simp only []; rw [hcl], hr, by simp, fun _ => rfl⟩
  · rw [hi] at hp
    obtain ⟨hist, c, h1, h2, h3, h4, _⟩ := hp.2 (by simp)
    exact ⟨hist, c, h1, h2, h3, h4, fun h0 => by simp at h0⟩

theorem transactionPlan_eq (authOffered : Bool) (auth : Option PlainAuth) (sender : Bytes)
    (toAddrs cc : List Bytes) (msg : Bytes) :
    ∃ p, transactionPlan authOffered auth sender toAddrs cc msg = p ++ [Call.quit] ∧
      ∀ c ∈ p, c ≠ Call.close ∧ c ≠ Call.quit := by
  refine ⟨(match auth with
    | some a => if authOffered then [Call.auth a] else []
    | none => []) ++
    [Call.mail sender] ++ toAddrs.map Call.rcpt ++ cc.map Call.rcpt ++
    [Call.data, Call.write msg, Call.closeData], ?_, ?_⟩
  · simp only [transactionPlan, List.append_assoc, List.cons_append, List.nil_append]
  · intro c hc
    simp only [List.mem_append, List.mem_map, List.mem_cons, List.mem_singleton,
      List.not_mem_nil, or_false] at hc
    rcases hc with (((hc | hc) | hc) | hc) | hc
    · cases auth with
      | none => simp at hc
      | some a =>
        by_cases hb : authOffered = true
        · simp only [hb, if_true, List.mem_singleton] at hc
          subst hc
          exact ⟨by simp, by simp⟩
        · simp [hb] at hc
    · subst hc
      exact ⟨by simp, by simp⟩
    · obtain ⟨a, _, rfl⟩ := hc
      exact ⟨by simp, by simp⟩
    · obtain ⟨a, _, rfl⟩ := hc
      exact ⟨by simp, by simp⟩
    · rcases hc with rfl | rfl | rfl <;> exact ⟨by simp, by simp⟩

theorem runPlan_append {ε : Type} (reply : List Call → Call → Option ε) :
    ∀ (p q hist : List Call), (runPlan reply p hist).2 = none →
      runPlan reply (p ++ q) hist = runPlan reply q (hist ++ p)
  | [], q, hist, _ => by simp
  | c :: p, q, hist, h => by
    have e1 : ∀ X, runPlan reply (c :: X) hist =
        match reply hist c with
        | some e => (hist ++ [c], some e)
        | none => runPlan reply X (hist ++ [c]) := fun _ => rfl
    rw [e1] at h
    rw [List.cons_append, e1]
    rcases hr : reply hist c with _ | e
    · rw [hr] at h
      simp only [] at h ⊢
      rw [runPlan_append reply p q (hist ++ [c]) h]
      simp
    · rw [hr] at h
      simp at h

/-- The session of a connected `sendMailUsingTLS`, by its commands. -/
theorem sendMailUsingTLS_connected {ε : Type} (srv : Server ε)
    (hconn : srv.dialResult = DialResult.connected) (auth : Option PlainAuth) (sender : Bytes)
    (toAddrs cc : List Bytes) (msg : Bytes) :
    sendMailUsingTLS srv auth sender toAddrs cc msg =
      (((issueAll srv (transactionPlan srv.authOffered auth sender toAddrs cc msg)
          { trace := [], connCloses := 0 }).1.issue srv Call.close).1,
        (issueAll srv (transactionPlan srv.authOffered auth sender toAddrs cc msg)
          { trace := [], connCloses := 0 }).2) := by
  simp only [sendMailUsingTLS, dial, hconn, sendCommands_eq]

theorem issueAll_trace_take {ε : Type} (srv : Server ε) : ∀ (p : List Call) (s : Session),
    ∃ k, (issueAll srv p s).1.trace = s.trace ++ p.take k
  | [], s => ⟨0, by simp [issueAll]⟩
  | c :: p, s => by
    have e1 : issueAll srv (c :: p) s =
        match s.issue srv c with
        | (s1, some e) => (s1, some e)
        | (s1, none) => issueAll srv p s1 := rfl
    have ht := (issue_trace srv c s).1
    rw [e1]
    rcases hi : s.issue srv c with ⟨s1, _ | e⟩
    · rw [hi] at ht
      simp only [] at ht ⊢
      obtain ⟨k, hk⟩ := issueAll_trace_take srv p s1
      exact ⟨k + 1, by rw [hk, ht]; simp⟩
    · rw [hi] at ht
      simp only [] at ht ⊢
      exact ⟨1, by rw [ht]; simp⟩

theorem transactionPlan_no_close (authOffered : Bool) (auth : Option PlainAuth) (sender : Bytes)
    (toAddrs cc : List Bytes) (msg : Bytes) :
    Call.close ∉ transactionPlan authOffered auth sender toAddrs cc msg := by
  obtain ⟨p, hp, hno⟩ := transactionPlan_eq authOffered auth sender toAddrs cc msg
  rw [hp]
  intro h
  rcases List.mem_append.mp h with h | h
  · exact (hno _ h).1 rfl
  · simp at h

/-- C4: with the client modelled by the calls issued on it, each answered by
success or an error, a connected `sendMailUsingTLS` issues the steps in the
fixed order [`AUTH` if offered, `MAIL` from, `RCPT` for each element of `to` in
order, `RCPT` for each element of `cc` in order, `DATA`, write of `msg`, close
of the data, `QUIT`], stops at the first failing step and returns that step's
error unchanged, and then calls the client's `Close`. In particular, when the
`RCPT` for the second of three recipients fails, the calls issued are those up
to that `RCPT` followed by `Close`: no third `RCPT`, no `DATA`, no write. -/
theorem sendMailUsingTLS_steps {ε : Type} (srv : Server ε)
    (hconn : srv.dialResult = DialResult.connected) (auth : Option PlainAuth) (sender : Bytes)
    (toAddrs cc : List Bytes) (msg : Bytes) :
    (sendMailUsingTLS srv auth sender toAddrs cc msg).1.trace =
        (runPlan srv.reply (transactionPlan srv.authOffered auth sender toAddrs cc msg) []).1 ++
          [Call.close] ∧
      (sendMailUsingTLS srv auth sender toAddrs cc msg).2 =
        (runPlan srv.reply (transactionPlan srv.authOffered auth sender toAddrs cc msg) []).2 ∧
      ∀ (r1 r2 r3 : Bytes) (e : ε), toAddrs = [r1, r2, r3] →
        (runPlan srv.reply (callsBeforeSecondRcpt srv.authOffered auth sender r1) []).2 = none →
        srv.reply (callsBeforeSecondRcpt srv.authOffered auth sender r1) (Call.rcpt r2) = some e →
        (sendMailUsingTLS srv auth sender toAddrs cc msg).1.trace =
            callsBeforeSecondRcpt srv.authOffered auth sender r1 ++ [Call.rcpt r2, Call.close] ∧
          (sendMailUsingTLS srv auth sender toAddrs cc msg).2 = some e ∧
          Call.data ∉ (sendMailUsingTLS srv auth sender toAddrs cc msg).1.trace ∧
          Call.write msg ∉ (sendMailUsingTLS srv auth sender toAddrs cc msg).1.trace := by
  have hrun := issueAll_runPlan srv (transactionPlan srv.authOffered auth sender toAddrs cc msg)
    { trace := [], connCloses := 0 }
  have htrace : (sendMailUsingTLS srv auth sender toAddrs cc msg).1.trace =
      (runPlan srv.reply (transactionPlan srv.authOffered auth sender toAddrs cc msg) []).1 ++
        [Call.close] := by
    rw [sendMailUsingTLS_connected srv hconn, ← hrun.1]
    rfl
  have hres : (sendMailUsingTLS srv auth sender toAddrs cc msg).2 =
      (runPlan srv.reply (transactionPlan srv.authOffered auth sender toAddrs cc msg) []).2 := by
    rw [sendMailUsingTLS_connected srv hconn, ← hrun.2]
  refine ⟨htrace, hres, ?_⟩
  intro r1 r2 r3 e hto h0 h1
  have hplan : transactionPlan srv.authOffered auth sender toAddrs cc msg =
      callsBeforeSecondRcpt srv.authOffered auth sender r1 ++
        (Call.rcpt r2 :: (Call.rcpt r3 :: (cc.map Call.rcpt ++
          [Call.data, Call.write msg, Call.closeData, Call.quit]))) := by
    simp only [transactionPlan, callsBeforeSecondRcpt, hto, List.map_cons, List.map_nil,
      List.append_assoc, List.cons_append, List.nil_append]
  have hrp : runPlan srv.reply (transactionPlan srv.authOffered auth sender toAddrs cc msg) [] =
      (callsBeforeSecondRcpt srv.authOffered auth sender r1 ++ [Call.rcpt r2], some e) := by
    rw [hplan, runPlan_append srv.reply _ _ [] h0, List.nil_append]
    simp only [runPlan, h1]
  have ht2 : (sendMailUsingTLS srv auth sender toAddrs cc msg).1.trace =
      callsBeforeSecondRcpt srv.authOffered auth sender r1 ++ [Call.rcpt r2, Call.close] := by
    rw [htrace, hrp]
    simp
  refine ⟨ht2, by rw [hres, hrp], ?_, ?_⟩
  · rw [ht2]
    cases auth with
    | none => simp [callsBeforeSecondRcpt]
    | some a => by_cases hb : srv.authOffered = true <;> simp [callsBeforeSecondRcpt, hb]
  · rw [ht2]
    cases auth with
    | none => simp [callsBeforeSecondRcpt]
    | some a => by_cases hb : srv.authOffered = true <;> simp [callsBeforeSecondRcpt, hb]

/-- A server that rejects the second of three recipients: the calls end with
that `RCPT` and `Close`, and its error `7` is returned. -/
theorem sendMailUsingTLS_steps_witness :
    (rejectingServer (str "r2")).dialResult = DialResult.connected ∧
      (sendMailUsingTLS (rejectingServer (str "r2")) (some sampleAuth) (str "a@b.c")
          [str "r1", str "r2", str "r3"] [str "c1"] (str "msg")).1.trace =
        [Call.auth sampleAuth, Call.mail (str "a@b.c"), Call.rcpt (str "r1"),
          Call.rcpt (str "r2"), Call.close] ∧
      (sendMailUsingTLS (rejectingServer (str "r2")) (some sampleAuth) (str "a@b.c")
          [str "r1", str "r2", str "r3"] [str "c1"] (str "msg")).2 = some 7 :=
  ⟨rfl,
    ((sendMailUsingTLS_steps (rejectingServer (str "r2")) rfl (some sampleAuth) (str "a@b.c")
      [str "r1", str "r2", str "r3"] [str "c1"] (str "msg")).2.2
        (str "r1") (str "r2") (str "r3") 7 rfl (by decide) (by decide)).1,
    ((sendMailUsingTLS_steps (rejectingServer (str "r2")) rfl (some sampleAuth) (str "a@b.c")
      [str "r1", str "r2", str "r3"] [str "c1"] (str "msg")).2.2
        (str "r1") (str "r2") (str "r3") 7 rfl (by decide) (by decide)).2.1⟩

/-- The close operations of a session whose client was created. -/
theorem sendMailUsingTLS_closes {ε : Type} (srv : Server ε)
    (hd : srv.dialResult = DialResult.connected) (auth : Option PlainAuth)
    (sender : Bytes) (toAddrs cc : List Bytes) (msg : Bytes) :
    (sendMailUsingTLS srv auth sender toAddrs cc msg).1.trace.count Call.close = 1 ∧
      (sendMailUsingTLS srv auth sender toAddrs cc msg).1.trace.getLast? = some Call.close ∧
      ∃ hist c, (sendMailUsingTLS srv auth sender toAddrs cc msg).1.trace =
          hist ++ [c, Call.close] ∧
        srv.reply hist c = (sendMailUsingTLS srv auth sender toAddrs cc msg).2 ∧
        c ≠ Call.close ∧
        ((sendMailUsingTLS srv auth sender toAddrs cc msg).2 = none → c = Call.quit) ∧
        (sendMailUsingTLS srv auth sender toAddrs cc msg).1.connCloses =
          callCloses srv hist c + 1 := by
  obtain ⟨p, hp, hno⟩ := transactionPlan_eq srv.authOffered auth sender toAddrs cc msg
  obtain ⟨hist, c, h1, h2, h3, h4, h5⟩ :=
    issueAll_quit_last srv p { trace := [], connCloses := 0 } hno
  obtain ⟨k, hk⟩ := issueAll_trace_take srv
    (transactionPlan srv.authOffered auth sender toAddrs cc msg)
    { trace := [], connCloses := 0 }
  have hnc := transactionPlan_no_close srv.authOffered auth sender toAddrs cc msg
  rw [sendMailUsingTLS_connected srv hd]
  rw [← hp] at h1 h2 h3 h5
  simp only [issue_eq]
  refine ⟨?_, ?_, hist, c, ?_, h3, h4, h5, ?_⟩
  · rw [hk, List.nil_append, List.count_append, List.count_eq_zero_of_not_mem
      (fun hm => hnc (List.mem_of_mem_take hm))]
    rfl
  · rw [List.getLast?_concat]
  · rw [h1]
    simp
  · rw [h2, callCloses_close]
    show 0 + callCloses srv hist c + 1 = callCloses srv hist c + 1
    omega

/-- C8 (as the code has it): counting the close operations on the transport
connection, on every exit path of `Send` after the connection has been
established the connection is not left open and sees at most two close
operations. A successful `Send` sees two: the one an accepted `QUIT` performs
and the deferred `Close` after it. When the greeting fails, `NewClient` has
closed the connection once and `Close` is never called. Once the client
exists, `Close` is called exactly once, as the last call, and the count is one
more than what the last call before it closed: exactly one when `Send` fails at
`MAIL`, any `RCPT`, `DATA`, the write or the data close; when `Send` fails at
`AUTH` or at `QUIT`, two if the library closed the connection in that call (the
`QUIT` with which `Auth` aborts was accepted, or the error of `Quit` is that of
its close) and one otherwise. -/
theorem send_closes_connection {ε : Type} (s : Sender) (B : Bytes) (srv : Server ε) (l : Letter)
    (hest : ∀ e, srv.dialResult ≠ DialResult.dialError e) :
    (1 ≤ (s.Send B srv l).2.1.connCloses ∧ (s.Send B srv l).2.1.connCloses ≤ 2) ∧
      ((s.Send B srv l).2.2 = none → (s.Send B srv l).2.1.connCloses = 2) ∧
      (∀ e, srv.dialResult = DialResult.greetingError e →
        (s.Send B srv l).2.2 = some e ∧ (s.Send B srv l).2.1.connCloses = 1 ∧
          (s.Send B srv l).2.1.trace = []) ∧
      (srv.dialResult = DialResult.connected →
        (s.Send B srv l).2.1.trace.count Call.close = 1 ∧
          (s.Send B srv l).2.1.trace.getLast? = some Call.close ∧
          ∃ hist c, (s.Send B srv l).2.1.trace = hist ++ [c, Call.close] ∧
            srv.reply hist c = (s.Send B srv l).2.2 ∧
            (s.Send B srv l).2.1.connCloses = callCloses srv hist c + 1 ∧
            ((s.Send B srv l).2.2 ≠ none → c ≠ Call.quit → (∀ a, c ≠ Call.auth a) →
              (s.Send B srv l).2.1.connCloses = 1) ∧
            ((s.Send B srv l).2.2 ≠ none → (c = Call.quit ∨ ∃ a, c = Call.auth a) →
              (s.Send B srv l).2.1.connCloses =
                if srv.closedInCall hist c then 2 else 1)) := by
  simp only [Sender.Send]
  cases hd : srv.dialResult with
  | dialError e => exact absurd hd (hest e)
  | greetingError e =>
    have hs : ∀ auth sender toAddrs cc msg,
        sendMailUsingTLS srv auth sender toAddrs cc msg =
          ({ trace := [], connCloses := 1 }, some e) := by
      intro auth sender toAddrs cc msg
      simp only [sendMailUsingTLS, dial, hd]
    rw [hs]
    refine ⟨⟨Nat.le_refl 1, Nat.le_succ 1⟩, fun h => by simp at h, ?_, fun h => by simp at h⟩
    intro e1 he1
    cases he1
    exact ⟨rfl, rfl, rfl⟩
  | connected =>
    obtain ⟨hcount, hlast, hist, c, h1, h3, h4, h5, h2⟩ := sendMailUsingTLS_closes srv hd
      (some { identity := [], username := s.Address, password := s.Password, host := s.Host })
      s.Address (l.build B).receivers (l.build B).carbonCopy (l.build B).body
    have hle := callCloses_le srv hist c
    refine ⟨⟨by omega, by omega⟩, ?_, fun e he => by simp at he, fun _ =>
      ⟨hcount, hlast, hist, c, h1, h3, h2, ?_, ?_⟩⟩
    · intro hnone
      have hc := h5 hnone
      subst hc
      rw [hnone] at h3
      rw [h2, callCloses_quit_ok srv hist h3]
    · intro _ hq ha
      rw [h2, callCloses_plain srv hist c h4 hq ha]
    · intro hres hc
      have hr : srv.reply hist c ≠ none := by rw [h3]; exact hres
      rw [h2, callCloses_failed srv hist c hr hc]
      split <;> rfl

/-- C8 as stated fails: when the server accepts every step, the connection sees
two close operations, not one. -/
theorem send_closes_twice_counterexample :
    (sampleSender.Send sampleBoundary acceptingServer sampleLetter).2.2 = none ∧
      (sampleSender.Send sampleBoundary acceptingServer sampleLetter).2.1.connCloses ≠ 1 := by
  decide

/-- An accepted session counts two close operations, a session with a rejected
recipient counts one, a session with a rejected authentication whose abort is
accepted counts two, and a failed greeting counts one without any call. -/
theorem send_closes_connection_witness :
    (∀ e, acceptingServer.dialResult ≠ DialResult.dialError e) ∧
      (sampleSender.Send sampleBoundary acceptingServer sampleLetter).2.1.connCloses = 2 ∧
      (sampleSender.Send sampleBoundary (rejectingServer (str "a@b.c")) sampleLetter).2.1.connCloses
        ≤ 2 ∧
      (sampleSender.Send sampleBoundary (rejectingServer (str "a@b.c")) sampleLetter).2.1.connCloses
        = 1 ∧
      (sampleSender.Send sampleBoundary authRejectingServer sampleLetter).2.1.connCloses = 2 ∧
      (sampleSender.Send sampleBoundary greetingFailingServer sampleLetter).2.1.connCloses = 1 ∧
      (sampleSender.Send sampleBoundary greetingFailingServer sampleLetter).2.1.trace = [] :=
  ⟨fun _ h => DialResult.noConfusion h,
    (send_closes_connection sampleSender sampleBoundary acceptingServer sampleLetter
      (fun _ h => DialResult.noConfusion h)).2.1 (by decide),
    (send_closes_connection sampleSender sampleBoundary (rejectingServer (str "a@b.c"))
      sampleLetter (fun _ h => DialResult.noConfusion h)).1.2,
    by decide, by decide,
    ((send_closes_connection sampleSender sampleBoundary greetingFailingServer sampleLetter
      (fun _ h => DialResult.noConfusion h)).2.2.1 3 rfl).2.1,
    ((send_closes_connection sampleSender sampleBoundary greetingFailingServer sampleLetter
      (fun _ h => DialResult.noConfusion h)).2.2.1 3 rfl).2.2⟩

/-! ## `main` -/

theorem Join_concat (sep : Bytes) : ∀ (xs : List Bytes) (y : Bytes), xs ≠ [] →
    Join (xs ++ [y]) sep = Join xs sep ++ sep ++ y
  | [], _, h => absurd rfl h
  | [a], y, _ => by simp [Join]
  | a :: b :: rest, y, _ => by
    have ih := Join_concat sep (b :: rest) y (by simp)
    have e : (a :: b :: rest) ++ [y] = a :: b :: (rest ++ [y]) := rfl
    have e2 : (b :: rest) ++ [y] = b :: (rest ++ [y]) := rfl
    rw [e2] at ih
    rw [e]
    simp only [Join, ih, List.append_assoc]

theorem addAttachment_eq (l : Letter) (filename data : Bytes) :
    l.AddAttachment filename data =
      { l with attachments := l.attachments ++ [{ Filename := filename, Data := data }] } := rfl

/-- The attachment loop of `main`, when every file can be read: the names are
joined by `:` and the attachments are appended in order. -/
theorem mainLoop_ok (fs : Bytes → Option Bytes) : ∀ (rest done : List Bytes) (l : Letter),
    (∀ p ∈ rest, fs p ≠ none) → l.attachments.map Attachment.Filename = done →
    ∃ l1, mainLoop fs done.length rest (Join done (str ":")) l =
        Outcome.value (Join (done ++ rest.map filepathBase) (str ":"), l1) ∧
      l1.attachments.map Attachment.Filename = done ++ rest.map filepathBase ∧
      l1.address = l.address ∧ l1.name = l.name ∧ l1.receivers = l.receivers ∧
      l1.carbonCopy = l.carbonCopy
  | [], done, l, _, hl => ⟨l, by simp [mainLoop], by simpa using hl, rfl, rfl, rfl, rfl⟩
  | path :: rest, done, l, hfs, hl => by
    obtain ⟨data, hdata⟩ := Option.ne_none_iff_exists'.mp (hfs path (List.mem_cons_self _ _))
    have hname : (if 0 = done.length then filepathBase path
        else Join done (str ":") ++ str ":" ++ filepathBase path) =
        Join (done ++ [filepathBase path]) (str ":") := by
      cases done with
      | nil => simp [Join]
      | cons d ds =>
        rw [Join_concat _ _ _ (by simp)]
        simp
    have hl1 : (l.AddAttachment (filepathBase path) data).attachments.map Attachment.Filename =
        done ++ [filepathBase path] := by
      rw [addAttachment_eq]
      simp [hl]
    obtain ⟨l1, h1, h2, h3, h4, h5, h6⟩ := mainLoop_ok fs rest (done ++ [filepathBase path])
      (l.AddAttachment (filepathBase path) data)
      (fun p hp => hfs p (List.mem_cons_of_mem _ hp)) hl1
    refine ⟨l1, ?_, ?_, h3, h4, h5, h6⟩
    · rw [mainLoop]
      simp only [hdata, hname]
      have hlen : (done ++ [filepathBase path]).length = done.length + 1 := by simp
      rw [hlen] at h1
      rw [h1]
      simp
    · rw [h2]
      simp

theorem addReceivers_attachments (l : Letter) (addresses : List Bytes) :
    (l.AddReceivers addresses).attachments = l.attachments := by
  unfold Letter.AddReceivers
  induction addresses generalizing l with
  | nil => rfl
  | cons a as ih => simp only [List.foldl_cons]; rw [ih]

/-- C9: for every non-empty list of attachment file paths, when the
configuration is accepted and every file can be read, the subject and the body
text that `main` sets on the letter are both the final path components of the
paths joined by `:` in the order supplied, and the letter's attachment list
holds those names in that order. -/
theorem mainLetter_subject (args : List Bytes) (envSV envUP : Bytes) (fs : Bytes → Option Bytes)
    (cfg : Config) (hargs : args ≠ []) (hcfg : mainConfig envSV envUP = Outcome.value cfg)
    (hfs : ∀ p ∈ args, fs p ≠ none) :
    ∃ sender l, mainLetter args envSV envUP fs = Outcome.value (sender, l) ∧
      l.Subject = Join (args.map filepathBase) (str ":") ∧
      l.content = Join (args.map filepathBase) (str ":") ∧
      l.attachments.map Attachment.Filename = args.map filepathBase := by
  have hlen : ¬ (0 = args.length) := by
    intro h
    exact hargs (List.length_eq_zero.mp h.symm)
  obtain ⟨l1, h1, h2, _⟩ := mainLoop_ok fs args []
    ((NewSender cfg.host cfg.port (str "you") cfg.address cfg.secret).NewLetter.AddReceivers
      [cfg.address])
    hfs (by rw [addReceivers_attachments]; rfl)
  simp only [List.length_nil, Join, List.nil_append] at h1 h2
  refine ⟨NewSender cfg.host cfg.port (str "you") cfg.address cfg.secret,
    (l1.SetSubject (Join (args.map filepathBase) (str ":"))).SetContent
      (Join (args.map filepathBase) (str ":")), ?_, rfl, rfl, h2⟩
  simp only [mainLetter, hlen, if_false, hcfg, h1]

/-- The arguments `/tmp/a.txt` and `b.zip` give the subject and body text
`a.txt:b.zip`. -/
theorem mainLetter_subject_witness :
    [str "/tmp/a.txt", str "b.zip"] ≠ [] ∧
      mainConfig [] [] = Outcome.value
        { host := str "smtp.163.com", port := 465, address := str "hello@163.com",
          secret := str "helloworld" } ∧
      (∀ p ∈ [str "/tmp/a.txt", str "b.zip"], sampleFiles p ≠ none) ∧
      [str "/tmp/a.txt", str "b.zip"].map filepathBase = [str "a.txt", str "b.zip"] ∧
      Join [str "a.txt", str "b.zip"] (str ":") = str "a.txt:b.zip" ∧
      ∃ sender l, mainLetter [str "/tmp/a.txt", str "b.zip"] [] [] sampleFiles =
          Outcome.value (sender, l) ∧
        l.Subject = Join ([str "/tmp/a.txt", str "b.zip"].map filepathBase) (str ":") ∧
        l.content = Join ([str "/tmp/a.txt", str "b.zip"].map filepathBase) (str ":") ∧
        l.attachments.map Attachment.Filename =
          [str "/tmp/a.txt", str "b.zip"].map filepathBase :=
  ⟨by decide, by decide, by decide, by decide, by decide,
    mainLetter_subject [str "/tmp/a.txt", str "b.zip"] [] [] sampleFiles
      { host := str "smtp.163.com", port := 465, address := str "hello@163.com",
        secret := str "helloworld" } (by decide) (by decide) (by decide)⟩

/-- C10 fails on the code: a credential string without `:` makes the access
`aUP[1]` fault, and a server string without `:` makes the access `aEml[1]`
fault; neither ends with an exit status. -/
theorem mainConfig_index_fault :
    mainConfig (str "smtp.163.com:465") (str "hello") = Outcome.fault ∧
      mainConfig (str "localhost") (str "hello@163.com:helloworld") = Outcome.fault ∧
      (splitByte 58 (str "hello"))[1]? = none ∧
      (splitByte 58 (str "localhost"))[1]? = none := by
  decide

end Smtpx
